import Mathlib

/-!
Verification of the ECG trace-extraction core (`digitize_service/viterbi.py`
and `digitize_service/vision.py`) against its natural-language specification.

Modelling conventions for the shallow embedding:
* Images are lists of rows of RGB byte triples; trace masks are lists of rows
  of booleans.  NumPy floating-point arithmetic is modelled by exact rationals
  (ℚ); decimal constants such as 0.5, 0.3, 1e-10 are embedded at their decimal
  value.
* `np.std(v) < 1` is embedded as `variance v < 1` (squaring both sides of the
  comparison, both being nonnegative); likewise the Euclidean colour distance
  test `sqrt(d) < tol` is embedded as `d < tol²`.
* Python exceptions that can escape a function are modelled by `Option`:
  `scipy.interpolate.interp1d` raises when given fewer than two sample points,
  and `extract_signal` propagates `np.max`/`np.linspace` errors on empty or
  negative-length sample grids; those paths return `none`.
* NaN is confined to the centroid extractor's intermediate per-column array
  and is modelled there by `Option ℚ`; every array a caller can observe is
  NaN-free in the source and is modelled as `List ℚ`.
* `int(x)` on a nonnegative float is truncation, embedded as the rational
  floor; `Python`'s `//` on nonnegative ints is `Nat` division.
-/

/- The Batteries rational-number arithmetic is `@[irreducible]`, which blocks
`decide`-style evaluation of the embedding on concrete inputs; restore the
default reducibility for this file (kernel semantics are unchanged). -/
set_option allowUnsafeReducibility true
attribute [local semireducible] Rat.add Rat.mul Rat.inv Rat.sub Rat.div

set_option maxRecDepth 100000

abbrev RGB := ℕ × ℕ × ℕ
abbrev Image := List (List RGB)
abbrev Mask := List (List Bool)

/-- Width of an image (its first row's length; rows are rectangular). -/
def imWidth (img : Image) : ℕ := (img.headD []).length

/-- Width of a mask. -/
def maskWidth (m : Mask) : ℕ := (m.headD []).length

/-- Pixel of a mask at row `y`, column `x`; `false` outside bounds (matching
the zero border value of the scipy binary morphology used on masks). -/
def mget (m : Mask) (y x : ℕ) : Bool := (m.getD y []).getD x false

/-- Pixel of an image at row `y`, column `x` (black outside bounds; never
actually read out of bounds). -/
def iget (img : Image) (y x : ℕ) : RGB := (img.getD y []).getD x (0, 0, 0)

/-- |a - b| for naturals. -/
def natDist (a b : ℕ) : ℕ := max a b - min a b

/-- Mean of a rational list (`np.mean`); 0 for the empty list. -/
def meanQ (l : List ℚ) : ℚ := l.sum / l.length

/-- `np.max` of a nonempty list (0 for empty, which the callers guard). -/
def listMax : List ℚ → ℚ
  | [] => 0
  | h :: t => t.foldl max h

/-- `np.min` of a nonempty list (0 for empty, which the callers guard). -/
def listMin : List ℚ → ℚ
  | [] => 0
  | h :: t => t.foldl min h

/-- Python `int()` of a float: truncation toward zero. -/
def pyInt (q : ℚ) : ℤ := if q < 0 then -⌊-q⌋ else ⌊q⌋

/-- `np.linspace(0, d, n)`: `n` evenly spaced samples from 0 to `d`. -/
def linspace (d : ℚ) (n : ℕ) : List ℚ :=
  if n = 1 then [0] else (List.range n).map (fun k : ℕ => d * k / ((n : ℚ) - 1))

/-- `np.median`: middle element of the sorted list, mean of the middle two for
even length (0 for the empty list, NaN in NumPy; callers guard nonemptiness). -/
def npMedian (l : List ℚ) : ℚ :=
  let s := l.insertionSort (· ≤ ·)
  let n := l.length
  if n = 0 then 0
  else if n % 2 = 1 then s.getD (n / 2) 0
  else (s.getD (n / 2 - 1) 0 + s.getD (n / 2) 0) / 2

/-- One evaluation of `scipy.interpolate.interp1d(xs, vs, kind='linear',
bounds_error=False, fill_value=(vs[0], vs[-1]))` on knots `pts` sorted by
abscissa: constant fill below the first and above the last knot, linear
interpolation in between. -/
def interpAt : List (ℚ × ℚ) → ℚ → ℚ
  | [], _ => 0
  | [(_, v)], _ => v
  | (x0, v0) :: (x1, v1) :: rest, t =>
    if t ≤ x0 then v0
    else if t ≤ x1 then v0 + (v1 - v0) * (t - x0) / (x1 - x0)
    else interpAt ((x1, v1) :: rest) t

/-- Element of a rational list at a signed index, 0 when out of range (the
zero padding of `scipy.signal.medfilt`). -/
def gQ (l : List ℚ) (j : ℤ) : ℚ := if 0 ≤ j then l.getD j.toNat 0 else 0

/-- Median of five values: the third smallest. -/
def med5 (a b c d e : ℚ) : ℚ := (([a, b, c, d, e]).insertionSort (· ≤ ·)).getD 2 0

/-- `scipy.signal.medfilt(l, kernel_size=5)`: sliding median of width 5 with
zero padding at both ends. -/
def medfilt5 (l : List ℚ) : List ℚ :=
  (List.range l.length).map (fun i : ℕ =>
    med5 (gQ l ((i : ℤ) - 2)) (gQ l ((i : ℤ) - 1)) (gQ l (i : ℤ))
      (gQ l ((i : ℤ) + 1)) (gQ l ((i : ℤ) + 2)))

/-! ### vision.create_color_mask -/

/-- One colour-distance test of `create_color_mask`: the source compares
`sqrt((R-tr)² + (G-tg)² + (B-tb)²) < tolerance`; both sides are nonnegative so
this is embedded squared. -/
def colorMatch (p c : RGB) (tol : ℚ) : Bool :=
  decide (((p.1 : ℚ) - c.1) ^ 2 + ((p.2.1 : ℚ) - c.2.1) ^ 2 + ((p.2.2 : ℚ) - c.2.2) ^ 2 < tol ^ 2)

/-- `vision.create_color_mask(image, target_colors, tolerance)`: a pixel is
marked when it is within `tolerance` of any target colour. -/
def create_color_mask (img : Image) (colors : List RGB) (tol : ℚ) : Mask :=
  img.map (fun row => row.map (fun p => colors.any (fun c => colorMatch p c tol)))

/-! ### viterbi.detect_trace_pixels_color -/

/-- Per-pixel colour rule of `detect_trace_pixels_color` (RGB branch of the
source; the claims only concern RGB inputs).  Channels are cast to rationals,
decimal float constants are embedded at their decimal value. -/
def tracePixelRule (p : RGB) : Bool :=
  let R : ℚ := p.1
  let G : ℚ := p.2.1
  let B : ℚ := p.2.2
  let brightness := (R + G + B) / 3
  let is_dark := brightness < 80
  let color_balance := |R - G| + |G - B| + |R - B|
  let is_neutral := color_balance < 60
  let is_not_pink := ¬(R > G + 20 ∧ R > B + 20)
  let black_trace := is_dark ∧ (is_neutral ∨ is_not_pink)
  let is_blue := B > R * (3 / 2) ∧ B > G * (6 / 5) ∧ B > 150
  let is_dark_blue := B > R ∧ B > G ∧ R < 120 ∧ G < 120 ∧ B > 100
  let is_green := G > R * (13 / 10) ∧ G > B * (13 / 10) ∧ G > 100
  decide (black_trace ∨ (is_blue ∨ is_dark_blue) ∨ is_green)

/-- Build an `H × W` boolean table from a pixel predicate. -/
def maskTab (H W : ℕ) (f : ℕ → ℕ → Bool) : Mask :=
  (List.range H).map (fun y => (List.range W).map (f y))

/-- Binary erosion by the all-ones 2×2 structuring element (scipy origin at
index (1,1), border value 0): a pixel survives when its 2×2 up-left
neighbourhood is fully set. -/
def binErode (m : Mask) (y x : ℕ) : Bool :=
  decide (1 ≤ y) && decide (1 ≤ x) &&
    mget m (y - 1) (x - 1) && mget m (y - 1) x && mget m y (x - 1) && mget m y x

/-- Binary dilation by the same structuring element (reflected about the
origin): a pixel fires when any of its 2×2 down-right neighbourhood is set. -/
def binDilate (m : Mask) (y x : ℕ) : Bool :=
  mget m y x || mget m y (x + 1) || mget m (y + 1) x || mget m (y + 1) (x + 1)

/-- `scipy.ndimage.binary_opening` with `np.ones((2,2))`: erosion followed by
dilation. -/
def binary_opening (m : Mask) : Mask :=
  let H := m.length
  let W := maskWidth m
  let e := maskTab H W (binErode m)
  maskTab H W (binDilate e)

/-- `detect_trace_pixels_color(image)`: per-pixel colour rule followed by the
2×2 morphological opening. -/
def detect_trace_pixels_color (img : Image) : Mask :=
  binary_opening (img.map (fun row => row.map tracePixelRule))

/-- Number of `True` pixels of a mask (`np.sum(mask)`). -/
def countTrue (m : Mask) : ℕ := (m.map (fun row => row.countP id)).sum

/-! ### viterbi.find_rhythm_strip -/

/-- Height of one of the 5 horizontal bands: `H // 5`. -/
def bandHeight (H : ℕ) : ℕ := H / 5

/-- Row bounds `(y_start, y_end)` of band `i`:
`(i * band_height, min((i+1) * band_height, H))`. -/
def bandBounds (H i : ℕ) : ℕ × ℕ := (i * bandHeight H, min ((i + 1) * bandHeight H) H)

/-- Whether column `x` of rows `[ys, ye)` of the mask contains a trace pixel
(`np.any(band, axis=0)` at column `x`). -/
def colHasTrace (m : Mask) (ys ye x : ℕ) : Bool :=
  (List.range' ys (ye - ys)).any (fun y => mget m y x)

/-- Number of sign changes of a boolean indicator sequence
(`np.sum(np.abs(np.diff(ind)))`). -/
def transitions (l : List Bool) : ℕ := (l.zip l.tail).countP (fun p => p.1 != p.2)

/-- Fraction of columns of band rows `[ys, ye)` containing a trace pixel. -/
def bandCoverage (m : Mask) (ys ye : ℕ) : ℚ :=
  let W := maskWidth m
  (((List.range W).countP (colHasTrace m ys ye) : ℚ)) / W

/-- Fraction of `True` pixels of band rows `[ys, ye)` (`np.sum(band)/band.size`). -/
def bandDensity (m : Mask) (ys ye : ℕ) : ℚ :=
  let W := maskWidth m
  (((List.range' ys (ye - ys)).map (fun y => (List.range W).countP (fun x => mget m y x))).sum : ℚ)
    / ((ye - ys) * W)

/-- Continuity term `1 / (1 + gaps/100)` of a band. -/
def bandContinuity (m : Mask) (ys ye : ℕ) : ℚ :=
  let W := maskWidth m
  let gaps := transitions ((List.range W).map (colHasTrace m ys ye))
  1 / (1 + (gaps : ℚ) / 100)

/-- Score of band `i` in `find_rhythm_strip`:
`coverage * 0.5 + continuity * 0.3 + min(density * 10, 0.2)`. -/
def bandScore (m : Mask) (i : ℕ) : ℚ :=
  let (ys, ye) := bandBounds m.length i
  bandCoverage m ys ye * (1 / 2) + bandContinuity m ys ye * (3 / 10) +
    min (bandDensity m ys ye * 10) (1 / 5)

/-- `find_rhythm_strip(trace_mask)`: score the 5 bands, stably sort them by
descending score (Python's stable `list.sort(reverse=True)` is modelled by
insertion sort with the non-strict relation), take the best and expand it by
`band_height // 3` on each side, clipped to the image. -/
def find_rhythm_strip (m : Mask) : ℕ × ℕ :=
  let H := m.length
  let bh := bandHeight H
  let scored := (List.range 5).map
    (fun i => (i, bandScore m i, (bandBounds H i).1, (bandBounds H i).2))
  let sorted := scored.insertionSort (fun a b => b.2.1 ≤ a.2.1)
  let best := sorted.headD (0, 0, 0, 0)
  let margin := bh / 3
  (best.2.2.1 - margin, min H (best.2.2.2 + margin))

/-! ### viterbi.extract_trace_centroid -/

/-- Row indices (relative to `ys`) of trace pixels of column `x` within region
rows `[ys, ye)` (`np.where(region[:, x])`; the slice is clipped at the mask
height, and `mget` is `false` there, so the same set results). -/
def regionRows (m : Mask) (ys ye x : ℕ) : List ℕ :=
  (List.range (ye - ys)).filter (fun ry => mget m (ys + ry) x)

/-- The per-column weighted-centroid array of `extract_trace_centroid`
(`trace_y` in the source): NaN for a column with no trace pixels, modelled by
`none`. -/
def centroidTraceY (m : Mask) (ys ye : ℕ) : List (Option ℚ) :=
  (List.range (maskWidth m)).map (fun x =>
    let rows := regionRows m ys ye x
    if rows.isEmpty then none
    else some ((ys : ℚ) + meanQ (rows.map (fun r : ℕ => (r : ℚ)))))

/-- Columns with a valid (non-NaN) centroid (`valid_x` in the source). -/
def centroidValid (m : Mask) (ys ye : ℕ) : List ℕ :=
  (List.range (maskWidth m)).filter (fun x => ((centroidTraceY m ys ye).getD x none).isSome)

/-- `extract_trace_centroid(trace_mask, y_start, y_end)`.  Constant midpoint
path when fewer than 20 % of the columns are valid, linear interpolation of
the gaps otherwise, then a width-5 median filter.  `interp1d` raises on fewer
than two valid points (`none`).  The float comparison `len(valid) < W * 0.2`
is exact for the relevant sizes and is embedded as `5 * len(valid) < W`. -/
def extract_trace_centroid (m : Mask) (ys ye : ℕ) : Option (List ℚ) :=
  let W := maskWidth m
  let trace_y := centroidTraceY m ys ye
  let valid := centroidValid m ys ye
  if 5 * valid.length < W then some (List.replicate W (((ys : ℚ) + (ye : ℚ)) / 2))
  else
    let pts := valid.map (fun x => ((Nat.cast x : ℚ), (trace_y.getD x none).getD 0))
    if valid.length < W then
      if valid.length < 2 then none
      else some (medfilt5 ((List.range W).map (fun x : ℕ => interpAt pts (x : ℚ))))
    else some (medfilt5 (trace_y.map (fun o => o.getD 0)))

/-! ### viterbi.extract_trace_viterbi -/

/-- Cluster ascending row indices with gaps ≤ 3, replacing each cluster by the
truncated mean (`int(np.mean(cluster))`; rows are nonnegative so truncation is
the floor, i.e. `Nat` division of the exact sum). -/
def clusterGroups : List ℕ → List ℕ → List (List ℕ)
  | cur, [] => [cur.reverse]
  | cur, r :: rest =>
    match cur with
    | [] => clusterGroups [r] rest
    | c :: _ => if r - c ≤ 3 then clusterGroups (r :: cur) rest
                else cur.reverse :: clusterGroups [r] rest

/-- Candidate y-values of one column: cluster means of its trace rows. -/
def colCandidates (m : Mask) (ys ye x : ℕ) : List ℕ :=
  match regionRows m ys ye x with
  | [] => []
  | r :: rest => (clusterGroups [r] rest).map (fun g => g.sum / g.length)

/-- Candidate lists per column after the empty-column fill: an empty column
takes the average of the nearest nonempty columns' first candidates (one side
when only one exists, the region midpoint `region_h // 2` when none). -/
def filledCandidates (m : Mask) (ys ye : ℕ) : List (List ℕ) :=
  let W := maskWidth m
  let cands := (List.range W).map (colCandidates m ys ye)
  (List.range W).map (fun x =>
    match cands.getD x [] with
    | [] =>
      let left := ((List.range x).reverse.find?
        (fun lx => !(cands.getD lx []).isEmpty)).map (fun lx => (cands.getD lx []).headD 0)
      let right := ((List.range' (x + 1) (W - (x + 1))).find?
        (fun rx => !(cands.getD rx []).isEmpty)).map (fun rx => (cands.getD rx []).headD 0)
      match left, right with
      | some l, some r => [(l + r) / 2]
      | some l, none => [l]
      | none, some r => [r]
      | none, none => [(ye - ys) / 2]
    | c => c)

/-- One DP state: candidate y, accumulated cost, predecessor candidate in the
previous column (`None` for column 0). -/
abbrev DPEntry := ℕ × ℚ × Option ℕ

/-- Minimising predecessor of candidate `y` over the previous column's reached
states, in their stored (candidate) order, skipping jumps over `mj`; strict
`<` keeps the first minimum, like the source loop.  Transition cost is
`jump * 0.5 + 1`. -/
def bestPred (mj : ℕ) (prev : List DPEntry) (y : ℕ) : Option (ℕ × ℚ) :=
  prev.foldl (fun acc e =>
    if natDist y e.1 > mj then acc
    else
      let c := e.2.1 + (natDist y e.1 : ℚ) / 2 + 1
      match acc with
      | none => some (e.1, c)
      | some b => if c < b.2 then some (e.1, c) else acc) none

/-- DP table of one column from the previous table: only candidates with a
reachable predecessor are recorded (the cost dictionary of the source only
holds reached states). -/
def dpStep (mj : ℕ) (prev : List DPEntry) (cands : List ℕ) : List DPEntry :=
  cands.filterMap (fun y => (bestPred mj prev y).map (fun b => (y, b.2, some b.1)))

/-- Tables of columns 1.. given column 0's table. -/
def dpTablesAux (mj : ℕ) : List DPEntry → List (List ℕ) → List (List DPEntry)
  | _, [] => []
  | tbl, c :: cs =>
    let t := dpStep mj tbl c
    t :: dpTablesAux mj t cs

/-- All DP tables, one per column; column 0 candidates start at cost 0 with no
predecessor. -/
def dpTables (mj : ℕ) : List (List ℕ) → List (List DPEntry)
  | [] => []
  | c0 :: cs =>
    let t0 : List DPEntry := c0.map (fun y => (y, (0 : ℚ), none))
    t0 :: dpTablesAux mj t0 cs

/-- First entry of minimal cost (Python's `min` with a key keeps the first
minimum in iteration order). -/
def firstMinCost (tbl : List DPEntry) : Option DPEntry :=
  tbl.foldl (fun acc e =>
    match acc with
    | none => some e
    | some b => if e.2.1 < b.2.1 then some e else acc) none

/-- Backtrack over the reversed table list (last column first): emit the
current candidate, follow its predecessor pointer; stop at column 0 (`none`
predecessor) or on a missing state. -/
def backtrackRev : List (List DPEntry) → ℕ → List ℕ
  | [], y => [y]
  | tbl :: rest, y =>
    match tbl.find? (fun e => e.1 == y) with
    | some (_, _, some yp) => y :: backtrackRev rest yp
    | _ => [y]

/-- The Viterbi dynamic program of `extract_trace_viterbi`: `none` when no
state at the last column was reached (the centroid fallback is then taken).
Returns the region-relative path. -/
def viterbiDP (m : Mask) (ys ye mj : ℕ) : Option (List ℕ) :=
  let cands := filledCandidates m ys ye
  let tables := dpTables mj cands
  match tables.getLast? with
  | none => none
  | some last =>
    (firstMinCost last).map (fun e => (backtrackRev tables.reverse e.1).reverse)

/-- `np.pad(l, (0, W - len), mode='edge')` followed by `[:W]`: repeat the last
element up to width `W`, then truncate to `W`. -/
def padTakeW (l : List ℚ) (W : ℕ) : List ℚ :=
  (l ++ List.replicate (W - l.length) (l.getLast?.getD 0)).take W

/-- `extract_trace_viterbi(trace_mask, y_start, y_end, max_jump=30)`: DP path
translated to full-image coordinates and padded to the image width; on DP
failure, the weighted-centroid fallback. -/
def extract_trace_viterbi (m : Mask) (ys ye mj : ℕ) : Option (List ℚ) :=
  match viterbiDP m ys ye mj with
  | some p => some (padTakeW (p.map (fun y => ((y + ys : ℕ) : ℚ))) (maskWidth m))
  | none => extract_trace_centroid m ys ye

/-! ### viterbi.detect_grid_spacing_robust -/

/-- Grid-discriminating channel combination `R - 0.5 * G` at a pixel. -/
def gridSig (p : RGB) : ℚ := (p.1 : ℚ) - (p.2.1 : ℚ) / 2

/-- Column profile: per-column mean over rows of `gridSig`. -/
def colProfile (img : Image) : List ℚ :=
  let H := img.length
  (List.range (imWidth img)).map (fun x =>
    meanQ ((List.range H).map (fun y => gridSig (iget img y x))))

/-- Row profile: per-row mean over columns of `gridSig`. -/
def rowProfile (img : Image) : List ℚ :=
  let W := imWidth img
  img.map (fun row => meanQ ((List.range W).map (fun x => gridSig (row.getD x (0, 0, 0)))))

/-- Subtract the mean. -/
def centeredQ (l : List ℚ) : List ℚ := l.map (fun v => v - meanQ l)

/-- Variance (mean of squares of the centred profile); `np.std(v) < 1` is
embedded as `varQ (centered v) < 1`. -/
def varQ (l : List ℚ) : ℚ := meanQ (l.map (fun v => v ^ 2))

/-- Nonnegative-lag autocorrelation normalised by the zero-lag value plus
`1e-10` (`np.correlate(a, a, 'full')[n-1:] / (ac[0] + 1e-10)`). -/
def autocorrN (a : List ℚ) : List ℚ :=
  let n := a.length
  let raw := (List.range n).map (fun k =>
    ((List.range (n - k)).map (fun i => a.getD i 0 * a.getD (i + k) 0)).sum)
  raw.map (fun v => v / (raw.getD 0 0 + 1 / 10000000000))

/-- Python slice `l[a:b]`. -/
def sliceL (l : List ℚ) (a b : ℕ) : List ℚ := (l.drop a).take (b - a)

/-- Skip forward over a plateau of value `v` (inner while-loop of scipy's
`_local_maxima_1d`). -/
def lmSkip (f : ℕ → ℚ) (imax : ℕ) (v : ℚ) : ℕ → ℕ → ℕ
  | 0, j => j
  | fuel + 1, j => if j < imax ∧ f j = v then lmSkip f imax v fuel (j + 1) else j

/-- Main scan of scipy's `_local_maxima_1d`: indices (plateau midpoints) of
strict local maxima. -/
def lmAux (f : ℕ → ℚ) (imax : ℕ) : ℕ → ℕ → List ℕ
  | 0, _ => []
  | fuel + 1, i =>
    if i < imax then
      if f (i - 1) < f i then
        let ia := lmSkip f imax (f i) (imax + 1) (i + 1)
        if f ia < f i then (i + (ia - 1)) / 2 :: lmAux f imax fuel (ia + 1)
        else lmAux f imax fuel (i + 1)
      else lmAux f imax fuel (i + 1)
    else []

/-- Local maxima (plateau midpoints) of a sequence. -/
def localMaxima (a : List ℚ) : List ℕ :=
  lmAux (fun i => a.getD i 0) (a.length - 1) (a.length + 1) 1

/-- scipy's `_select_by_peak_distance`: process peaks by descending priority
(their height; the source's `np.argsort` tie order is unspecified, modelled
here by a stable sort), clearing every other peak closer than `d`.  Because
the peak list is ascending, clearing the whole `< d` neighbourhood equals the
source's two contiguous sweeps. -/
def selectByDistance (f : ℕ → ℚ) (peaks : List ℕ) (d : ℕ) : List ℕ :=
  let m := peaks.length
  let order := ((List.range m).insertionSort
    (fun a b => f (peaks.getD a 0) ≤ f (peaks.getD b 0))).reverse
  let keep := order.foldl (fun kp j =>
    if kp.getD j false = false then kp
    else (List.range m).map (fun k =>
      kp.getD k false && (k == j || decide (d ≤ natDist (peaks.getD k 0) (peaks.getD j 0)))))
    (List.replicate m true)
  (List.range m).filterMap (fun k =>
    if keep.getD k false then some (peaks.getD k 0) else none)

/-- `scipy.signal.find_peaks(a, height=hmin, distance=d)`: local maxima,
filtered by height (inclusive lower bound), then by distance. -/
def findPeaks (a : List ℚ) (hmin : ℚ) (d : ℕ) : List ℕ :=
  let f := fun i => a.getD i 0
  selectByDistance f ((localMaxima a).filter (fun p => hmin ≤ f p)) d

/-- Sub-pixel parabolic refinement of the integer peak location (skipped when
the spacing is at the border or the fit denominator is within `1e-6`). -/
def refineSpacing (sp : ℕ) (ac : List ℚ) : ℚ :=
  if 1 < sp ∧ sp + 1 < ac.length then
    let y0 := ac.getD (sp - 1) 0
    let y1 := ac.getD sp 0
    let y2 := ac.getD (sp + 1) 0
    let denom := y0 - 2 * y1 + y2
    if 1 / 1000000 < |denom| then (sp : ℚ) + (1 / 2) * (y0 - y2) / denom else sp
  else sp

/-- `detect_grid_spacing_robust(image)`: autocorrelation peak search on the
column profile, falling back to the row profile, with `min_spacing = 5`,
`max_spacing = min(100, W // 10)`, peak height 0.1, peak distance 3;
confidence is `min(1, height * 1.5)`. -/
def detect_grid_spacing_robust (img : Image) : Option ℚ × ℚ :=
  let W := imWidth img
  let c := centeredQ (colProfile img)
  if varQ c < 1 then (none, 0)
  else
    let maxsp := min 100 (W / 10)
    let acC := autocorrN c
    let slicedC := sliceL acC 5 maxsp
    match findPeaks slicedC (1 / 10) 3 with
    | p :: _ =>
      (some (refineSpacing (p + 5) acC), min 1 (slicedC.getD p 0 * (3 / 2)))
    | [] =>
      let r := centeredQ (rowProfile img)
      if varQ r < 1 then (none, 0)
      else
        let acR := autocorrN r
        let slicedR := sliceL acR 5 maxsp
        match findPeaks slicedR (1 / 10) 3 with
        | [] => (none, 0)
        | p :: _ =>
          (some (refineSpacing (p + 5) acR), min 1 (slicedR.getD p 0 * (3 / 2)))

/-! ### viterbi.extract_signal -/

/-- Result record of the extraction pipeline (`ExtractionResult`). -/
structure ExtractionResult where
  signal : List ℚ
  signal_uV : List ℚ
  fs : ℕ
  duration_s : ℚ
  quality_score : ℚ
  grid_spacing_px : ℚ
  method : String
deriving DecidableEq, Repr

/-- Steps 1 and 1b of `extract_signal`: the colour classifier's mask, replaced
by the oracle colour mask when the classifier found fewer than 500 pixels, the
external oracle supplied a nonempty colour list (`oracle` models the outcome
of the out-of-scope vision call: `none` covers missing image bytes, an
unavailable API and a thrown/empty oracle answer) and the oracle mask matches
strictly more pixels; the `method` tag records which mask is in use. -/
def chooseMask (img : Image) (oracle : Option (List RGB)) : Mask × String :=
  let m0 := detect_trace_pixels_color img
  let c0 := countTrue m0
  if c0 < 500 then
    match oracle with
    | some colors =>
      if colors.isEmpty then (m0, "viterbi_color")
      else
        let vm := create_color_mask img colors 60
        if countTrue vm > c0 then (vm, "viterbi_vision") else (m0, "viterbi_color")
    | none => (m0, "viterbi_color")
  else (m0, "viterbi_color")

/-- Step 2 of `extract_signal`: grid spacing and confidence after the
fallback (spacing absent or `< 3` px ⟶ `W / 250` and confidence 0.3). -/
def gridFinal (img : Image) : ℚ × ℚ :=
  let W := imWidth img
  let ge := detect_grid_spacing_robust img
  match ge.1 with
  | none => ((W : ℚ) / 250, 3 / 10)
  | some sp => if sp < 3 then ((W : ℚ) / 250, 3 / 10) else (sp, ge.2)

/-- Step 4 of `extract_signal`: `extract_trace_viterbi` inside `try`, the
centroid method in the `except` branch (reached only when the viterbi call
itself raised, i.e. returned `none`). -/
def tracePathOpt (m : Mask) (ys ye : ℕ) : Option (List ℚ) :=
  match extract_trace_viterbi m ys ye 30 with
  | some p => some p
  | none => extract_trace_centroid m ys ye

/-- Steps 5–9 of `extract_signal` (all total): calibration of the pixel path
to µV against the region midpoint baseline, linear resampling onto
`int(duration_s * target_fs)` samples, median baseline correction, amplitude
normalisation, and quality scoring.  The source computes
`coverage = np.sum(~np.isnan(trace_px)) / W`; the path arrays produced by both
extractors are NaN-free (gaps are interpolated or filled before they are
returned), which the embedding reflects by counting all entries. -/
def calibrateAndScore (W : ℕ) (spacing gconf : ℚ) (ys ye : ℕ) (trace_px : List ℚ)
    (speed gain : ℚ) (fs : ℕ) (method : String) : ExtractionResult :=
  let baseline : ℚ := ((ys : ℚ) + (ye : ℚ)) / 2
  let trace_uV := trace_px.map (fun p => (baseline - p) / spacing / gain * 1000)
  let duration := ((W : ℚ) / spacing) / speed
  let n : ℤ := pyInt (duration * fs)
  let pts := (linspace duration W).zip trace_uV
  let signal0 := (linspace duration n.toNat).map (interpAt pts)
  let med := npMedian signal0
  let s1 := signal0.map (fun v => v - med)
  let srange := listMax s1 - listMin s1
  let signal_uV :=
    if srange < 200 then
      if srange > 0 then s1.map (fun v => v * (1500 / srange)) else s1
    else if srange > 8000 then s1.map (fun v => v * (3000 / srange))
    else s1
  let frange := listMax signal_uV - listMin signal_uV
  let coverage : ℚ := (trace_px.length : ℚ) / W
  let range_quality : ℚ := if frange > 500 then min 1 (frange / 2000) else 3 / 10
  let quality := gconf * (3 / 10) + coverage * (4 / 10) + range_quality * (3 / 10)
  ⟨trace_px, signal_uV, fs, duration, quality, spacing, method⟩

/-- `extract_signal(image, paper_speed_mm_s, voltage_scale_mm_mV, target_fs)`
with the oracle outcome injected (§6 of the spec): classification and the
optional oracle override, grid estimation with its fallback, region
selection, path extraction, then `calibrateAndScore`.  `none` models the
ValueErrors NumPy/SciPy raise when the image is narrower than 2 px or the
target sample grid is empty or of negative length, and a path-extraction
failure propagating out of both extractors. -/
def extract_signal (img : Image) (oracle : Option (List RGB))
    (speed gain : ℚ) (fs : ℕ) : Option ExtractionResult :=
  let W := imWidth img
  let mm := chooseMask img oracle
  let g := gridFinal img
  let reg := find_rhythm_strip mm.1
  match tracePathOpt mm.1 reg.1 reg.2 with
  | none => none
  | some trace_px =>
    if pyInt (((W : ℚ) / g.1) / speed * fs) ≤ 0 ∨ W < 2 then none
    else some (calibrateAndScore W g.1 g.2 reg.1 reg.2 trace_px speed gain fs mm.2)

/-! ### Concrete inputs used by counterexamples and witnesses -/

/-- All-white (all-background) image of size `H × W`. -/
def awImage (H W : ℕ) : Image := List.replicate H (List.replicate W (255, 255, 255))

/-- All-white 5 × 5 image. -/
def aw55 : Image := awImage 5 5

/-- All-white 5 × 50 image. -/
def aw50 : Image := awImage 5 50

/-- Pixel rule of the 125 × 4 fallback image: a blue-ish trace colour
(130, 5, 250) on white, drawn as two 2-px-thick disconnected segments — rows
0–1 on the left half of the columns and rows 31–32 on the right half — whose
vertical gap at the splice column exceeds `max_jump = 30`. -/
def c1pix (y x : ℕ) : RGB :=
  if (y < 2 ∧ x < 2) ∨ (31 ≤ y ∧ y ≤ 32 ∧ 2 ≤ x) then (130, 5, 250) else (255, 255, 255)

/-- The 125 × 4 image with two disconnected trace segments. -/
def imgC1 : Image := (List.range 125).map (fun y => (List.range 4).map (c1pix y))

/-- 10 × 1 mask with a single trace pixel at row 4. -/
def maskW1 : Mask := (List.range 10).map (fun y => [decide (y = 4)])

/-- 5 × 50 mask with a single trace pixel at (0, 0). -/
def maskC2 : Mask :=
  (List.range 5).map (fun y => (List.range 50).map (fun x => decide (y = 0 ∧ x = 0)))

/-- All-false 7 × 3 mask (only its height matters for band bounds). -/
def maskC6 : Mask := List.replicate 7 (List.replicate 3 false)

/-- All-false 1 × 1 mask. -/
def maskC7 : Mask := [[false]]

/-- 6 × 3 mask with one pixel per column at rows 0, 2, 4 (DP succeeds). -/
def maskC8 : Mask :=
  (List.range 6).map (fun y => (List.range 3).map (fun x => decide (y = 2 * x)))

/-- 10 × 3 mask with a full-width horizontal line at row 5. -/
def maskC10w : Mask := (List.range 10).map (fun y => List.replicate 3 (decide (y = 5)))


/-- 1 × 1 all-white image. -/
def imgW1 : Image := [[(255, 255, 255)]]

/-- The coverage notion the spec describes for the quality score: the
fraction of columns of the selected region that contain at least one trace
pixel ("valid, non-fallback pixel evidence").  Stated from the spec's words
for comparison with the source's computation. -/
def evidenceCoverage (m : Mask) (ys ye : ℕ) : ℚ :=
  (((List.range (maskWidth m)).countP (fun x => !(regionRows m ys ye x).isEmpty) : ℚ)) /
    maskWidth m

/-! ## Helper lemmas -/

/-- Inversion of a successful `extract_signal` run: the result is
`calibrateAndScore` applied to the components the pipeline computed. -/
theorem extract_signal_some_inv (img : Image) (oracle : Option (List RGB)) (speed gain : ℚ)
    (fs : ℕ) (r : ExtractionResult) (h : extract_signal img oracle speed gain fs = some r) :
    ∃ trace_px,
      tracePathOpt (chooseMask img oracle).1 (find_rhythm_strip (chooseMask img oracle).1).1
          (find_rhythm_strip (chooseMask img oracle).1).2 = some trace_px ∧
        ¬(pyInt (((imWidth img : ℚ) / (gridFinal img).1) / speed * fs) ≤ 0 ∨ imWidth img < 2) ∧
        r = calibrateAndScore (imWidth img) (gridFinal img).1 (gridFinal img).2
            (find_rhythm_strip (chooseMask img oracle).1).1
            (find_rhythm_strip (chooseMask img oracle).1).2 trace_px speed gain fs
            (chooseMask img oracle).2 := by
  simp only [extract_signal] at h
  split at h
  · exact absurd h (by simp)
  · next tp htp =>
    split at h
    · exact absurd h (by simp)
    · next hg => exact ⟨tp, htp, hg, (Option.some_injective _ h).symm⟩

/-- The head of the stable descending insertion sort used by
`find_rhythm_strip` is a score maximiser and belongs to the list. -/
theorem insertionSort_headD_max (l : List (ℕ × ℚ × ℕ × ℕ)) (d : ℕ × ℚ × ℕ × ℕ) (hl : l ≠ []) :
    (l.insertionSort (fun a b => b.2.1 ≤ a.2.1)).headD d ∈ l ∧
      ∀ a ∈ l, a.2.1 ≤ ((l.insertionSort (fun a b => b.2.1 ≤ a.2.1)).headD d).2.1 := by
  haveI : IsTotal (ℕ × ℚ × ℕ × ℕ) (fun a b => b.2.1 ≤ a.2.1) :=
    ⟨fun a b => le_total b.2.1 a.2.1⟩
  haveI : IsTrans (ℕ × ℚ × ℕ × ℕ) (fun a b => b.2.1 ≤ a.2.1) :=
    ⟨fun _ _ _ h1 h2 => le_trans h2 h1⟩
  have hs := List.sorted_insertionSort (fun a b => b.2.1 ≤ a.2.1) l
  have hp := List.perm_insertionSort (fun a b => b.2.1 ≤ a.2.1) l
  cases he : l.insertionSort (fun a b => b.2.1 ≤ a.2.1) with
  | nil =>
    rw [he] at hp
    exact absurd hp.nil_eq.symm hl
  | cons hd tl =>
    rw [he] at hs hp
    constructor
    · exact hp.mem_iff.mp (List.mem_cons_self hd tl)
    · intro a ha
      rcases List.mem_cons.mp (hp.symm.mem_iff.mp ha) with h | h
      · exact le_of_eq (congrArg (fun e : ℕ × ℚ × ℕ × ℕ => e.2.1) h)
      · exact List.rel_of_sorted_cons hs a h

/-- `find_rhythm_strip` returns the margin-expanded bounds of a band whose
score is maximal among the five bands. -/
theorem find_rhythm_strip_spec (m : Mask) :
    ∃ i < 5, (∀ j < 5, bandScore m j ≤ bandScore m i) ∧
      find_rhythm_strip m =
        ((bandBounds m.length i).1 - bandHeight m.length / 3,
          min m.length ((bandBounds m.length i).2 + bandHeight m.length / 3)) := by
  have h := insertionSort_headD_max
    ((List.range 5).map
      (fun i => (i, bandScore m i, (bandBounds m.length i).1, (bandBounds m.length i).2)))
    (0, 0, 0, 0) (by simp)
  obtain ⟨hmem, hmax⟩ := h
  obtain ⟨i, hi, hei⟩ := List.mem_map.mp hmem
  refine ⟨i, List.mem_range.mp hi, ?_, ?_⟩
  · intro j hj
    have hjmem :
        (j, bandScore m j, (bandBounds m.length j).1, (bandBounds m.length j).2) ∈
          (List.range 5).map
            (fun i => (i, bandScore m i, (bandBounds m.length i).1, (bandBounds m.length i).2)) :=
      List.mem_map.mpr ⟨j, List.mem_range.mpr hj, rfl⟩
    have hle := hmax _ hjmem
    rw [← hei] at hle
    exact hle
  · show find_rhythm_strip m = _
    simp only [find_rhythm_strip]
    rw [← hei]

/-! ## C6: band partition -/

/-- C6, counterexample.  The claim says the five bands of `find_rhythm_strip`
cover every row (the last band absorbing the remainder when `H` is not
divisible by 5).  For a mask of height 7 the bands are `[i, i+1)` for
`i = 0..4`, so row 5 — a valid row, `5 < 7` — belongs to no band at all:
`min((i+1)*bh, H)` can only shorten a band, never extend the last one. -/
theorem C6_counterexample :
    5 < maskC6.length ∧
      ∀ i < 5, ¬((bandBounds maskC6.length i).1 ≤ 5 ∧ 5 < (bandBounds maskC6.length i).2) := by
  decide

/-- C6, amended.  The five bands partition exactly the rows below
`5 * (H // 5)`: a row `r < H` lies in exactly one band iff `r < 5 * (H // 5)`;
the remainder rows at the bottom (and every row when `H < 5`) lie in no band. -/
theorem C6_amended (m : Mask) (r : ℕ) (hr : r < m.length) :
    (∃! i, i < 5 ∧ (bandBounds m.length i).1 ≤ r ∧ r < (bandBounds m.length i).2) ↔
      r < 5 * bandHeight m.length := by
  constructor
  · rintro ⟨i, ⟨hi5, _, h2⟩, _⟩
    have hmin : r < (i + 1) * bandHeight m.length :=
      lt_of_lt_of_le h2 (by simp [bandBounds])
    calc r < (i + 1) * bandHeight m.length := hmin
      _ ≤ 5 * bandHeight m.length := Nat.mul_le_mul_right _ (by omega)
  · intro hr5
    have hbh : 0 < bandHeight m.length := by
      rcases Nat.eq_zero_or_pos (bandHeight m.length) with h | h
      · omega
      · exact h
    refine ⟨r / bandHeight m.length, ⟨?_, ?_, ?_⟩, ?_⟩
    · exact (Nat.div_lt_iff_lt_mul hbh).mpr hr5
    · simpa [bandBounds] using Nat.div_mul_le_self r (bandHeight m.length)
    · have h1 : r < (r / bandHeight m.length + 1) * bandHeight m.length :=
        (Nat.div_lt_iff_lt_mul hbh).mp (Nat.lt_succ_self _)
      simp only [bandBounds]
      exact lt_min h1 hr
    · rintro j ⟨hj5, hj1, hj2⟩
      have hj2' : r < (j + 1) * bandHeight m.length :=
        lt_of_lt_of_le hj2 (by simp [bandBounds])
      have hj1' : j * bandHeight m.length ≤ r := by simpa [bandBounds] using hj1
      exact (Nat.div_eq_of_lt_le hj1' hj2').symm

/-- C6, witness for the amended claim at a mask of height 10 and row 3:
`3 < 10` and the partition equivalence holds there. -/
theorem C6_amended_witness :
    3 < maskC10w.length ∧
      ((∃! i, i < 5 ∧ (bandBounds maskC10w.length i).1 ≤ 3 ∧
          3 < (bandBounds maskC10w.length i).2) ↔
        3 < 5 * bandHeight maskC10w.length) :=
  ⟨by decide, C6_amended maskC10w 3 (by decide)⟩

/-! ## C7: region invariant -/

/-- C7, counterexample.  The claim asserts `0 ≤ y_start < y_end ≤ H` for
every mask with `H ≥ 1, W ≥ 1`.  For the all-false 1 × 1 mask, `H // 5 = 0`,
all five bands are the empty interval `[0, 0)` and `find_rhythm_strip`
returns `(0, 0)`, violating `y_start < y_end`. -/
theorem C7_counterexample :
    1 ≤ maskC7.length ∧ 1 ≤ maskWidth maskC7 ∧ find_rhythm_strip maskC7 = (0, 0) ∧
      ¬(find_rhythm_strip maskC7).1 < (find_rhythm_strip maskC7).2 := by
  decide

/-- C7, amended.  For every mask of height `H ≥ 5` (and any positive width),
the region returned by `find_rhythm_strip` satisfies
`0 ≤ y_start < y_end ≤ H`. -/
theorem C7_amended (m : Mask) (hH : 5 ≤ m.length) (hW : 1 ≤ maskWidth m) :
    (find_rhythm_strip m).1 < (find_rhythm_strip m).2 ∧
      (find_rhythm_strip m).2 ≤ m.length := by
  obtain ⟨i, hi5, _, heq⟩ := find_rhythm_strip_spec m
  have hbh : 0 < bandHeight m.length := Nat.div_pos hH (by omega)
  have hb5 : 5 * bandHeight m.length ≤ m.length := by
    have h := Nat.div_mul_le_self m.length 5
    unfold bandHeight
    omega
  have hYe : (bandBounds m.length i).2 = (i + 1) * bandHeight m.length := by
    simp only [bandBounds]
    exact min_eq_left (le_trans (Nat.mul_le_mul_right _ (by omega)) hb5)
  rw [heq]
  constructor
  · have h1 : (bandBounds m.length i).1 - bandHeight m.length / 3 ≤
        i * bandHeight m.length := by
      simp [bandBounds]
    have h2 : i * bandHeight m.length < (i + 1) * bandHeight m.length :=
      (Nat.mul_lt_mul_right hbh).mpr (Nat.lt_succ_self i)
    have h3 : (i + 1) * bandHeight m.length ≤
        min m.length ((bandBounds m.length i).2 + bandHeight m.length / 3) := by
      apply le_min
      · rw [hYe] at *
        exact le_trans (Nat.mul_le_mul_right _ (by omega)) hb5
      · rw [hYe]; omega
    omega
  · exact min_le_left _ _

/-- C7, witness for the amended claim at the 10 × 3 mask. -/
theorem C7_amended_witness :
    (find_rhythm_strip maskC10w).1 < (find_rhythm_strip maskC10w).2 ∧
      (find_rhythm_strip maskC10w).2 ≤ maskC10w.length :=
  C7_amended maskC10w (by decide) (by decide)

/-! ## C2: band score formula -/

/-- C2, counterexample.  The spec's density term is `min(0.2, 2·density)`, but
the source computes `min(density * 10, 0.2)`.  On the 5 × 50 mask with one
trace pixel, band 0 has density 1/50, so the source's term is
`min(1/5, 1/5) = 1/5` while the claimed one is `min(1/5, 1/25) = 1/25`, and
the scores differ. -/
theorem C2_counterexample :
    bandScore maskC2 0 ≠
      bandCoverage maskC2 (bandBounds maskC2.length 0).1 (bandBounds maskC2.length 0).2 * (1 / 2) +
        bandContinuity maskC2 (bandBounds maskC2.length 0).1 (bandBounds maskC2.length 0).2 *
          (3 / 10) +
        min (1 / 5)
          (2 * bandDensity maskC2 (bandBounds maskC2.length 0).1 (bandBounds maskC2.length 0).2) := by
  decide

/-- C2, amended.  The score of each band is
`0.5·coverage + 0.3·continuity + min(10·density, 0.2)` (the density
coefficient is 10, not 2), and `find_rhythm_strip` picks a band of maximal
score (first such band under the stable descending sort). -/
theorem C2_amended (m : Mask) (hH : 5 ≤ m.length) (hW : 1 ≤ maskWidth m) :
    (∀ i, bandScore m i =
        bandCoverage m (bandBounds m.length i).1 (bandBounds m.length i).2 * (1 / 2) +
          bandContinuity m (bandBounds m.length i).1 (bandBounds m.length i).2 * (3 / 10) +
          min (bandDensity m (bandBounds m.length i).1 (bandBounds m.length i).2 * 10) (1 / 5)) ∧
      ∃ i < 5, (∀ j < 5, bandScore m j ≤ bandScore m i) ∧
        find_rhythm_strip m =
          ((bandBounds m.length i).1 - bandHeight m.length / 3,
            min m.length ((bandBounds m.length i).2 + bandHeight m.length / 3)) := by
  constructor
  · intro i
    simp [bandScore]
  · exact find_rhythm_strip_spec m

/-- C2, witness for the amended claim at the 10 × 3 mask. -/
theorem C2_amended_witness :
    (∀ i, bandScore maskC10w i =
        bandCoverage maskC10w (bandBounds maskC10w.length i).1 (bandBounds maskC10w.length i).2 *
            (1 / 2) +
          bandContinuity maskC10w (bandBounds maskC10w.length i).1
              (bandBounds maskC10w.length i).2 * (3 / 10) +
          min (bandDensity maskC10w (bandBounds maskC10w.length i).1
              (bandBounds maskC10w.length i).2 * 10) (1 / 5)) ∧
      ∃ i < 5, (∀ j < 5, bandScore maskC10w j ≤ bandScore maskC10w i) ∧
        find_rhythm_strip maskC10w =
          ((bandBounds maskC10w.length i).1 - bandHeight maskC10w.length / 3,
            min maskC10w.length ((bandBounds maskC10w.length i).2 +
              bandHeight maskC10w.length / 3)) :=
  C2_amended maskC10w (by decide) (by decide)

/-! ## C9: oracle override -/

/-- C9, confirmed.  When the classifier's mask has fewer than 500 pixels and
the oracle supplied a nonempty colour list, the override mask
`create_color_mask(image, colors, 60)` replaces the classifier's mask and the
method tag becomes `"viterbi_vision"` (the spec's `ColorDPWithOracle`; the
default `"viterbi_color"` is its `ColorDP`) if and only if the override mask
matches strictly more pixels; and the `method` field of every successful
`extract_signal` result is exactly the tag chosen at this stage. -/
theorem C9_oracle_override (img : Image) (colors : List RGB)
    (hc : countTrue (detect_trace_pixels_color img) < 500) (hne : colors ≠ []) :
    ((chooseMask img (some colors) =
        (create_color_mask img colors 60, "viterbi_vision")) ↔
      countTrue (create_color_mask img colors 60) >
        countTrue (detect_trace_pixels_color img)) ∧
      ((¬ countTrue (create_color_mask img colors 60) >
          countTrue (detect_trace_pixels_color img)) →
        chooseMask img (some colors) = (detect_trace_pixels_color img, "viterbi_color")) ∧
      ∀ speed gain fs r, extract_signal img (some colors) speed gain fs = some r →
        r.method = (chooseMask img (some colors)).2 := by
  have hemp : colors.isEmpty = false := by
    cases colors with
    | nil => exact absurd rfl hne
    | cons a l => rfl
  have hck : chooseMask img (some colors) =
      if countTrue (create_color_mask img colors 60) >
          countTrue (detect_trace_pixels_color img) then
        (create_color_mask img colors 60, "viterbi_vision")
      else (detect_trace_pixels_color img, "viterbi_color") := by
    simp only [chooseMask, if_pos hc, hemp, Bool.false_eq_true, if_false]
  refine ⟨?_, ?_, ?_⟩
  · rw [hck]
    by_cases hgt : countTrue (create_color_mask img colors 60) >
        countTrue (detect_trace_pixels_color img)
    · rw [if_pos hgt]
      exact ⟨fun _ => hgt, fun _ => rfl⟩
    · rw [if_neg hgt]
      constructor
      · intro he
        exact absurd (congrArg Prod.snd he) (by simp)
      · intro hg
        exact absurd hg hgt
  · intro hgt
    rw [hck, if_neg hgt]
  · intro speed gain fs r hr
    obtain ⟨tp, _, _, hre⟩ := extract_signal_some_inv img (some colors) speed gain fs r hr
    rw [hre]
    rfl

/-- C9, witness at the 1 × 1 white image with the oracle answering white: the
classifier finds 0 pixels, the override mask matches 1, so the override fires
and both sides of the equivalence hold. -/
theorem C9_oracle_override_witness :
    ((chooseMask imgW1 (some [(255, 255, 255)]) =
        (create_color_mask imgW1 [(255, 255, 255)] 60, "viterbi_vision")) ↔
      countTrue (create_color_mask imgW1 [(255, 255, 255)] 60) >
        countTrue (detect_trace_pixels_color imgW1)) ∧
      ((¬ countTrue (create_color_mask imgW1 [(255, 255, 255)] 60) >
          countTrue (detect_trace_pixels_color imgW1)) →
        chooseMask imgW1 (some [(255, 255, 255)]) =
          (detect_trace_pixels_color imgW1, "viterbi_color")) ∧
      ∀ speed gain fs r, extract_signal imgW1 (some [(255, 255, 255)]) speed gain fs = some r →
        r.method = (chooseMask imgW1 (some [(255, 255, 255)])).2 :=
  C9_oracle_override imgW1 [(255, 255, 255)] (by decide) (by decide)

/-! ## C5: resampled length -/

/-- `linspace` always has exactly `n` samples. -/
theorem linspace_length (d : ℚ) (n : ℕ) : (linspace d n).length = n := by
  unfold linspace
  split
  · simp [*]
  · rw [List.length_map, List.length_range]

/-- The resampled output of `calibrateAndScore` has exactly
`int(duration_s * target_fs)` samples. -/
theorem calibrateAndScore_signal_uV_length (W : ℕ) (spacing gconf : ℚ) (ys ye : ℕ)
    (tp : List ℚ) (speed gain : ℚ) (fs : ℕ) (method : String) :
    (calibrateAndScore W spacing gconf ys ye tp speed gain fs method).signal_uV.length =
      (pyInt (((W : ℚ) / spacing) / speed * fs)).toNat := by
  simp only [calibrateAndScore]
  split
  · split
    · simp [linspace_length]
    · simp [linspace_length]
  · split
    · simp [linspace_length]
    · simp [linspace_length]

/-- The duration field of `calibrateAndScore`. -/
theorem calibrateAndScore_duration (W : ℕ) (spacing gconf : ℚ) (ys ye : ℕ)
    (tp : List ℚ) (speed gain : ℚ) (fs : ℕ) (method : String) :
    (calibrateAndScore W spacing gconf ys ye tp speed gain fs method).duration_s =
      ((W : ℚ) / spacing) / speed := rfl

/-- C5, counterexample.  The claim says the output length is
`round(duration_s * target_fs)`; the source uses `int()`, i.e. truncation
(`np.linspace(0, duration_s, int(duration_s * target_fs))`).  On the
all-white 5 × 50 image at 26 mm/s and 500 Hz, `duration_s = 250/26` and
`duration_s * 500 = 4807.69...`: the returned signal has 4807 samples while
rounding gives 4808. -/
theorem C5_counterexample :
    (extract_signal aw50 none 26 10 500).map (fun r => r.signal_uV.length) = some 4807 ∧
      ⌊((250 : ℚ) / 26) * 500 + 1 / 2⌋ = 4808 := by
  constructor
  · have hs : (extract_signal aw50 none 26 10 500).isSome = true := by decide
    obtain ⟨r, hr⟩ := Option.isSome_iff_exists.mp hs
    rw [hr]
    obtain ⟨tp, _, _, hre⟩ := extract_signal_some_inv _ _ _ _ _ _ hr
    simp only [Option.map_some']
    rw [hre, calibrateAndScore_signal_uV_length]
    decide
  · decide

/-- C5, amended.  For every successful extraction, the resampled `signal_uV`
has length `int(duration_s * target_fs)` — truncation, not rounding — where
`duration_s = (W / spacing_px) / speed`. -/
theorem C5_amended (img : Image) (oracle : Option (List RGB)) (speed gain : ℚ) (fs : ℕ)
    (r : ExtractionResult) (h : extract_signal img oracle speed gain fs = some r) :
    r.signal_uV.length = (pyInt (r.duration_s * fs)).toNat ∧
      r.duration_s = ((imWidth img : ℚ) / (gridFinal img).1) / speed := by
  obtain ⟨tp, _, _, hre⟩ := extract_signal_some_inv img oracle speed gain fs r h
  rw [hre, calibrateAndScore_signal_uV_length, calibrateAndScore_duration]
  exact ⟨rfl, rfl⟩

/-- C5, witness for the amended claim: the all-white 5 × 5 image at default
speed and gain, resampled to 1 Hz. -/
theorem C5_amended_witness :
    ((extract_signal aw55 none 25 10 1).get (by decide)).signal_uV.length =
        (pyInt (((extract_signal aw55 none 25 10 1).get (by decide)).duration_s * 1)).toNat ∧
      ((extract_signal aw55 none 25 10 1).get (by decide)).duration_s =
        ((imWidth aw55 : ℚ) / (gridFinal aw55).1) / 25 :=
  C5_amended aw55 none 25 10 1 _ (Option.some_get (by decide)).symm

/-! ## C3: quality score -/

/-- The quality score of `calibrateAndScore`, written against the result's
own fields. -/
theorem calibrateAndScore_quality (W : ℕ) (spacing gconf : ℚ) (ys ye : ℕ)
    (tp : List ℚ) (speed gain : ℚ) (fs : ℕ) (method : String) :
    (calibrateAndScore W spacing gconf ys ye tp speed gain fs method).quality_score =
      gconf * (3 / 10) + ((tp.length : ℚ) / W) * (4 / 10) +
        (if listMax (calibrateAndScore W spacing gconf ys ye tp speed gain fs method).signal_uV -
              listMin (calibrateAndScore W spacing gconf ys ye tp speed gain fs method).signal_uV >
            500 then
          min 1 ((listMax (calibrateAndScore W spacing gconf ys ye tp speed gain fs
                method).signal_uV -
              listMin (calibrateAndScore W spacing gconf ys ye tp speed gain fs
                method).signal_uV) / 2000)
        else 3 / 10) * (3 / 10) := rfl

/-- C3, counterexample.  The claim's `coverage` is "the fraction of PixelPath
columns that had valid (non-fallback) pixel evidence"; the source computes
`np.sum(~np.isnan(trace_px)) / W` over the final, gap-free path, which is
always 1.  On the all-white 5 × 5 image (no evidence anywhere, final range 0,
grid confidence 0.3), the source's quality score is
`0.3·0.3 + 0.4·1 + 0.3·0.3 = 0.58`, while the claimed formula yields
`0.3·0.3 + 0.4·0 + 0.3·0.3 = 0.18`. -/
theorem C3_counterexample :
    (extract_signal aw55 none 25 10 1).map (fun r => r.quality_score) = some (29 / 50) ∧
      (gridFinal aw55).2 * (3 / 10) +
          evidenceCoverage (chooseMask aw55 none).1
              (find_rhythm_strip (chooseMask aw55 none).1).1
              (find_rhythm_strip (chooseMask aw55 none).1).2 * (4 / 10) +
          (3 / 10) * (3 / 10) = 9 / 50 ∧
      (29 : ℚ) / 50 ≠ 9 / 50 := by
  refine ⟨by decide, by decide, by decide⟩

/-- C3, amended.  For every successful extraction the quality score is
`0.3·grid_confidence + 0.4·coverage + 0.3·range_quality` with
`range_quality = min(1, final_range/2000)` when `final_range > 500` and `0.3`
otherwise — but `coverage` is the fraction of non-NaN entries of the returned
pixel path (`signal.length / W`), which is 1 for the gap-free paths both
extractors return, not the fraction of columns with pixel evidence. -/
theorem C3_amended (img : Image) (oracle : Option (List RGB)) (speed gain : ℚ) (fs : ℕ)
    (r : ExtractionResult) (h : extract_signal img oracle speed gain fs = some r) :
    r.quality_score =
      (gridFinal img).2 * (3 / 10) + ((r.signal.length : ℚ) / imWidth img) * (4 / 10) +
        (if listMax r.signal_uV - listMin r.signal_uV > 500 then
          min 1 ((listMax r.signal_uV - listMin r.signal_uV) / 2000)
        else 3 / 10) * (3 / 10) := by
  obtain ⟨tp, _, _, hre⟩ := extract_signal_some_inv img oracle speed gain fs r h
  rw [hre]
  exact calibrateAndScore_quality _ _ _ _ _ _ _ _ _ _

/-- C3, witness for the amended claim at the all-white 5 × 5 image. -/
theorem C3_amended_witness :
    ((extract_signal aw55 none 25 10 1).get (by decide)).quality_score =
      (gridFinal aw55).2 * (3 / 10) +
        ((((extract_signal aw55 none 25 10 1).get (by decide)).signal.length : ℚ) /
            imWidth aw55) * (4 / 10) +
        (if listMax ((extract_signal aw55 none 25 10 1).get (by decide)).signal_uV -
              listMin ((extract_signal aw55 none 25 10 1).get (by decide)).signal_uV > 500 then
          min 1 ((listMax ((extract_signal aw55 none 25 10 1).get (by decide)).signal_uV -
              listMin ((extract_signal aw55 none 25 10 1).get (by decide)).signal_uV) / 2000)
        else 3 / 10) * (3 / 10) :=
  C3_amended aw55 none 25 10 1 _ (Option.some_get (by decide)).symm

/-! ## C8: DP jump bound -/

/-- Invariant principle for `List.foldl`. -/
theorem foldl_invariant {α β : Type} (P : β → Prop) (f : β → α → β) (l : List α) (acc : β)
    (hacc : P acc) (hstep : ∀ b, P b → ∀ a ∈ l, P (f b a)) : P (l.foldl f acc) := by
  induction l generalizing acc with
  | nil => exact hacc
  | cons x t ih =>
    exact ih (f acc x) (hstep acc hacc x (List.mem_cons_self x t))
      (fun b hb a ha => hstep b hb a (List.mem_cons_of_mem x ha))

/-- |a - b| over ℕ equals the rational absolute difference. -/
theorem natDist_cast (a b : ℕ) : |(a : ℚ) - b| = (natDist a b : ℚ) := by
  unfold natDist
  rcases le_total a b with h | h
  · rw [max_eq_right h, min_eq_left h, Nat.cast_sub h, abs_sub_comm]
    exact abs_of_nonneg (sub_nonneg.mpr ((Nat.cast_le (α := ℚ)).mpr h))
  · rw [max_eq_left h, min_eq_right h, Nat.cast_sub h]
    exact abs_of_nonneg (sub_nonneg.mpr ((Nat.cast_le (α := ℚ)).mpr h))

/-- Whatever predecessor `bestPred` selects is within `max_jump`. -/
theorem bestPred_jump (mj : ℕ) (prev : List DPEntry) (y : ℕ) (p : ℕ × ℚ)
    (h : bestPred mj prev y = some p) : natDist y p.1 ≤ mj := by
  unfold bestPred at h
  revert h
  have := foldl_invariant (fun acc : Option (ℕ × ℚ) => ∀ q : ℕ × ℚ, acc = some q → natDist y q.1 ≤ mj)
    (fun acc e =>
      if natDist y e.1 > mj then acc
      else
        let c := e.2.1 + (natDist y e.1 : ℚ) / 2 + 1
        match acc with
        | none => some (e.1, c)
        | some b => if c < b.2 then some (e.1, c) else acc)
    prev none (fun q hq => by simp at hq)
    (fun b hb e _ => by
      intro q hq
      dsimp only at hq
      split at hq
      · exact hb q hq
      · split at hq
        · rw [Option.some_inj] at hq
          rw [← hq]
          show natDist y e.1 ≤ mj
          omega
        · split at hq
          · rw [Option.some_inj] at hq
            rw [← hq]
            show natDist y e.1 ≤ mj
            omega
          · exact hb q hq)
  exact fun h => this p h

/-- Whatever predecessor `bestPred` selects is a key of the previous table. -/
theorem bestPred_mem (mj : ℕ) (prev : List DPEntry) (y : ℕ) (p : ℕ × ℚ)
    (h : bestPred mj prev y = some p) : ∃ e ∈ prev, e.1 = p.1 := by
  unfold bestPred at h
  revert h
  have := foldl_invariant
    (fun acc : Option (ℕ × ℚ) => ∀ q : ℕ × ℚ, acc = some q → ∃ e ∈ prev, e.1 = q.1)
    (fun acc e =>
      if natDist y e.1 > mj then acc
      else
        let c := e.2.1 + (natDist y e.1 : ℚ) / 2 + 1
        match acc with
        | none => some (e.1, c)
        | some b => if c < b.2 then some (e.1, c) else acc)
    prev none (fun q hq => by simp at hq)
    (fun b hb e he => by
      intro q hq
      dsimp only at hq
      split at hq
      · exact hb q hq
      · split at hq
        · rw [Option.some_inj] at hq
          exact ⟨e, he, by rw [← hq]⟩
        · split at hq
          · rw [Option.some_inj] at hq
            exact ⟨e, he, by rw [← hq]⟩
          · exact hb q hq)
  exact fun h => this p h

/-- Every entry of a `dpStep` table has its candidate among the column's
candidates and a recorded predecessor that is a previous-table key within
`max_jump`. -/
theorem dpStep_entry (mj : ℕ) (prev : List DPEntry) (cands : List ℕ) (e : DPEntry)
    (h : e ∈ dpStep mj prev cands) :
    e.1 ∈ cands ∧ ∃ yp, e.2.2 = some yp ∧ natDist e.1 yp ≤ mj ∧ ∃ pe ∈ prev, pe.1 = yp := by
  unfold dpStep at h
  obtain ⟨y, hy, hmap⟩ := List.mem_filterMap.mp h
  obtain ⟨b, hb, hbe⟩ := Option.map_eq_some'.mp hmap
  rw [← hbe]
  exact ⟨hy, b.1, rfl, bestPred_jump mj prev y b hb, bestPred_mem mj prev y b hb⟩

/-- Every table of `dpTablesAux` records only jumps within `max_jump`. -/
theorem dpTablesAux_good (mj : ℕ) (cs : List (List ℕ)) :
    ∀ (tbl : List DPEntry), ∀ t ∈ dpTablesAux mj tbl cs,
      ∀ e ∈ t, ∀ yp, e.2.2 = some yp → natDist e.1 yp ≤ mj := by
  induction cs with
  | nil => intro tbl t ht; simp [dpTablesAux] at ht
  | cons c cs ih =>
    intro tbl t ht
    rcases List.mem_cons.mp ht with h | h
    · subst h
      intro e he yp hyp
      obtain ⟨-, yp', hyp', hj, -⟩ := dpStep_entry mj tbl c e he
      rw [hyp'] at hyp
      rw [Option.some_inj] at hyp
      rw [← hyp]
      exact hj
    · exact ih (dpStep mj tbl c) t h

/-- Every table of `dpTables` records only jumps within `max_jump`. -/
theorem dpTables_good (mj : ℕ) (cands : List (List ℕ)) :
    ∀ t ∈ dpTables mj cands, ∀ e ∈ t, ∀ yp, e.2.2 = some yp → natDist e.1 yp ≤ mj := by
  cases cands with
  | nil => intro t ht; simp [dpTables] at ht
  | cons c0 cs =>
    intro t ht
    rcases List.mem_cons.mp ht with h | h
    · subst h
      intro e he yp hyp
      obtain ⟨y, -, hye⟩ := List.mem_map.mp he
      rw [← hye] at hyp
      simp at hyp
    · exact dpTablesAux_good mj cs _ t h

/-- The backtracked path starts at the requested candidate. -/
theorem backtrackRev_head (ts : List (List DPEntry)) (y : ℕ) :
    (backtrackRev ts y).head? = some y := by
  cases ts with
  | nil => rfl
  | cons tbl rest =>
    unfold backtrackRev
    split <;> rfl

/-- Adjacent elements of the backtracked path are recorded
candidate/predecessor pairs, hence within `max_jump`. -/
theorem backtrackRev_chain (mj : ℕ) (ts : List (List DPEntry))
    (hts : ∀ t ∈ ts, ∀ e ∈ t, ∀ yp, e.2.2 = some yp → natDist e.1 yp ≤ mj) (y : ℕ) :
    List.Chain' (fun a b => natDist a b ≤ mj) (backtrackRev ts y) := by
  induction ts generalizing y with
  | nil => simp [backtrackRev]
  | cons tbl rest ih =>
    unfold backtrackRev
    split
    · next e c yp hfind =>
      rw [List.chain'_cons']
      constructor
      · intro b hb
        rw [backtrackRev_head rest yp] at hb
        rw [Option.mem_def, Option.some_inj] at hb
        subst hb
        have hmem := List.mem_of_find?_eq_some hfind
        have hkey : e = y := by
          have := List.find?_some hfind
          simpa using this
        have := hts tbl (List.mem_cons_self _ _) (e, c, some yp) hmem yp rfl
        simpa [hkey] using this
      · exact ih (fun t ht => hts t (List.mem_cons_of_mem _ ht)) yp
    · simp

/-- `natDist` is symmetric. -/
theorem natDist_comm (a b : ℕ) : natDist a b = natDist b a := by
  unfold natDist
  rw [Nat.max_comm, Nat.min_comm]

/-- A constant list is a chain for any reflexive-at-the-value relation. -/
theorem chain'_replicate_self {R : ℚ → ℚ → Prop} (n : ℕ) (a : ℚ) (h : R a a) :
    List.Chain' R (List.replicate n a) := by
  induction n with
  | zero => simp
  | succ k ih =>
    rw [List.replicate_succ, List.chain'_cons']
    refine ⟨fun b hb => ?_, ih⟩
    cases k with
    | zero => simp at hb
    | succ k2 =>
      rw [List.replicate_succ] at hb
      simp only [List.head?_cons, Option.mem_def, Option.some_inj] at hb
      rw [← hb]
      exact h

/-- Edge padding and truncation preserve a chain (with reflexivity). -/
theorem padTakeW_chain {R : ℚ → ℚ → Prop} (l : List ℚ) (W : ℕ) (hrefl : ∀ a, R a a)
    (h : List.Chain' R l) : List.Chain' R (padTakeW l W) := by
  unfold padTakeW
  apply List.Chain'.take
  rw [List.chain'_append]
  refine ⟨h, chain'_replicate_self _ _ (hrefl _), ?_⟩
  intro x hx y hy
  cases hl : l.getLast? with
  | none => rw [hl] at hx; simp at hx
  | some a =>
    rw [hl] at hx
    rw [Option.mem_def, Option.some_inj] at hx
    subst hx
    have hyv : y = l.getLast?.getD 0 := by
      rcases Nat.eq_zero_or_pos (W - l.length) with h0 | h0
      · rw [h0] at hy; simp at hy
      · obtain ⟨k, hk⟩ := Nat.exists_eq_succ_of_ne_zero (Nat.pos_iff_ne_zero.mp h0)
        rw [hk, List.replicate_succ] at hy
        simpa using hy.symm
    rw [hyv, hl]
    exact hrefl a

/-- C8, confirmed.  Whenever the Viterbi dynamic program reaches a terminal
state (no centroid fallback), every pair of adjacent values of the returned
path differs by at most `max_jump`, because only transitions with
`|y_curr - y_prev| ≤ max_jump` are ever recorded, and the edge padding
repeats a value. -/
theorem C8_jump_bound (m : Mask) (ys ye mj : ℕ) (p : List ℕ) (q : List ℚ)
    (hdp : viterbiDP m ys ye mj = some p)
    (hq : extract_trace_viterbi m ys ye mj = some q) :
    ∀ i, i + 1 < q.length → |q.getD (i + 1) 0 - q.getD i 0| ≤ (mj : ℚ) := by
  have hqe : q = padTakeW (p.map (fun y => ((y + ys : ℕ) : ℚ))) (maskWidth m) := by
    unfold extract_trace_viterbi at hq
    rw [hdp] at hq
    exact (Option.some_inj.mp hq).symm
  have hchain : List.Chain' (fun a b => natDist a b ≤ mj) p := by
    simp only [viterbiDP] at hdp
    cases hlast : (dpTables mj (filledCandidates m ys ye)).getLast? with
    | none => rw [hlast] at hdp; simp at hdp
    | some last =>
      rw [hlast] at hdp
      simp only [Option.map_eq_some'] at hdp
      obtain ⟨e, _, hpe⟩ := hdp
      rw [← hpe]
      have hbtr : List.Chain' (fun a b => natDist a b ≤ mj)
          (backtrackRev (dpTables mj (filledCandidates m ys ye)).reverse e.1) := by
        apply backtrackRev_chain
        intro t ht
        exact dpTables_good mj (filledCandidates m ys ye) t (List.mem_reverse.mp ht)
      rw [List.chain'_reverse]
      have hflip : (flip fun a b => natDist a b ≤ mj) = fun a b : ℕ => natDist a b ≤ mj := by
        funext a b
        simp only [flip]
        rw [natDist_comm]
      rw [hflip]
      exact hbtr
  have hchain2 : List.Chain' (fun a b : ℚ => |b - a| ≤ (mj : ℚ))
      (p.map (fun y => ((y + ys : ℕ) : ℚ))) := by
    rw [List.chain'_map]
    refine hchain.imp ?_
    intro a b hab
    have h1 : ((b + ys : ℕ) : ℚ) - ((a + ys : ℕ) : ℚ) = (b : ℚ) - a := by
      push_cast
      ring
    rw [h1, natDist_cast]
    rw [natDist_comm]
    exact_mod_cast hab
  have hchain3 : List.Chain' (fun a b : ℚ => |b - a| ≤ (mj : ℚ)) q := by
    rw [hqe]
    exact padTakeW_chain _ _ (fun a => by simp) hchain2
  intro i hi
  have := List.chain'_iff_get.mp hchain3 i (by omega)
  rw [List.getD_eq_get?, List.getD_eq_get?, List.get?_eq_get (by omega : i < q.length),
    List.get?_eq_get (by omega : i + 1 < q.length)] at *
  simpa using this

/-- C8, witness: the 6 × 3 mask with one pixel per column at rows 0, 2, 4;
the DP succeeds with path `[0, 2, 4]` and all jumps are within 30. -/
theorem C8_jump_bound_witness :
    |([0, 2, 4] : List ℚ).getD 1 0 - ([0, 2, 4] : List ℚ).getD 0 0| ≤ ((30 : ℕ) : ℚ) :=
  C8_jump_bound maskC8 0 6 30 [0, 2, 4] [0, 2, 4] (by decide) (by decide) 0 (by decide)

/-! ## C1: fallback and the method field -/

/-- Element of a range-map at an in-range index. -/
theorem getD_map_range {α : Type} (f : ℕ → α) (W x : ℕ) (d : α) (hx : x < W) :
    (((List.range W).map f).getD x d) = f x := by
  rw [List.getD_eq_get?, List.get?_map, List.get?_range hx]
  rfl

/-- `medfilt5` preserves length. -/
theorem medfilt5_length (l : List ℚ) : (medfilt5 l).length = l.length := by
  unfold medfilt5
  rw [List.length_map, List.length_range]

/-- The number of valid centroid columns is the number of columns with trace
evidence in the region. -/
theorem centroidValid_length (m : Mask) (ys ye : ℕ) :
    (centroidValid m ys ye).length =
      (List.range (maskWidth m)).countP (fun x => !(regionRows m ys ye x).isEmpty) := by
  unfold centroidValid centroidTraceY
  rw [← List.countP_eq_length_filter]
  apply List.countP_congr
  intro x hx
  rw [getD_map_range _ _ _ _ (List.mem_range.mp hx)]
  cases he : (regionRows m ys ye x).isEmpty <;> simp [he]

/-- The centroid extractor either returns a full-width path or raises, and it
raises only when fewer than two columns are valid. -/
theorem extract_trace_centroid_cases (m : Mask) (ys ye : ℕ) :
    (∃ path, extract_trace_centroid m ys ye = some path ∧ path.length = maskWidth m) ∨
      (extract_trace_centroid m ys ye = none ∧ (centroidValid m ys ye).length < 2) := by
  simp only [extract_trace_centroid]
  split
  · exact Or.inl ⟨_, rfl, by simp⟩
  · split
    · split
      · next h2 => exact Or.inr ⟨rfl, h2⟩
      · refine Or.inl ⟨_, rfl, ?_⟩
        rw [medfilt5_length, List.length_map, List.length_range]
    · refine Or.inl ⟨_, rfl, ?_⟩
      rw [medfilt5_length, List.length_map]
      unfold centroidTraceY
      rw [List.length_map, List.length_range]

/-- A row-wise boolean map preserves the width. -/
theorem maskWidth_rowMap (img : Image) (f : RGB → Bool) :
    maskWidth (img.map (fun row => row.map f)) = imWidth img := by
  cases img <;> simp [maskWidth, imWidth]

/-- Width of a generated table. -/
theorem maskWidth_maskTab (H W : ℕ) (f : ℕ → ℕ → Bool) :
    maskWidth (maskTab H W f) = if H = 0 then 0 else W := by
  cases H with
  | zero => rfl
  | succ n => simp [maskTab, maskWidth, List.range_succ_eq_map]

/-- The morphological opening preserves the width. -/
theorem maskWidth_binary_opening (m : Mask) : maskWidth (binary_opening m) = maskWidth m := by
  unfold binary_opening
  rw [maskWidth_maskTab]
  cases m with
  | nil => simp [maskWidth]
  | cons r t => simp [maskWidth]

/-- Both candidate masks of `chooseMask` have the image's width. -/
theorem maskWidth_chooseMask (img : Image) (oracle : Option (List RGB)) :
    maskWidth (chooseMask img oracle).1 = imWidth img := by
  have hd : maskWidth (detect_trace_pixels_color img) = imWidth img := by
    unfold detect_trace_pixels_color
    rw [maskWidth_binary_opening, maskWidth_rowMap]
  cases oracle with
  | none =>
    simp only [chooseMask]
    split <;> exact hd
  | some colors =>
    simp only [chooseMask]
    split
    · split
      · exact hd
      · split
        · show maskWidth (create_color_mask img colors 60) = imWidth img
          unfold create_color_mask
          exact maskWidth_rowMap img _
        · exact hd
    · exact hd

/-- When the DP reaches no terminal state, `extract_trace_viterbi` returns
the centroid extraction. -/
theorem extract_trace_viterbi_fallback (m : Mask) (ys ye mj : ℕ)
    (h : viterbiDP m ys ye mj = none) :
    extract_trace_viterbi m ys ye mj = extract_trace_centroid m ys ye := by
  unfold extract_trace_viterbi
  rw [h]

/-- Under DP fallback, the pipeline's path is the centroid path. -/
theorem tracePathOpt_fallback (m : Mask) (ys ye : ℕ) (h : viterbiDP m ys ye 30 = none) :
    tracePathOpt m ys ye = extract_trace_centroid m ys ye := by
  unfold tracePathOpt
  rw [extract_trace_viterbi_fallback m ys ye 30 h]
  cases hc : extract_trace_centroid m ys ye <;> simp

/-- A successful pipeline run, assembled from its parts. -/
theorem extract_signal_eq_some (img : Image) (oracle : Option (List RGB)) (speed gain : ℚ)
    (fs : ℕ) (path : List ℚ)
    (hp : tracePathOpt (chooseMask img oracle).1 (find_rhythm_strip (chooseMask img oracle).1).1
        (find_rhythm_strip (chooseMask img oracle).1).2 = some path)
    (hguard : ¬(pyInt (((imWidth img : ℚ) / (gridFinal img).1) / speed * fs) ≤ 0 ∨
        imWidth img < 2)) :
    extract_signal img oracle speed gain fs =
      some (calibrateAndScore (imWidth img) (gridFinal img).1 (gridFinal img).2
        (find_rhythm_strip (chooseMask img oracle).1).1
        (find_rhythm_strip (chooseMask img oracle).1).2 path speed gain fs
        (chooseMask img oracle).2) := by
  simp only [extract_signal, hp]
  rw [if_neg hguard]

/-- C1, counterexample.  On the 125 × 4 image whose mask holds two
disconnected 2-px-thick segments with a 31-px vertical gap at the splice
column (region `(0, 33)`, `max_jump = 30`), the DP reaches no terminal state
and the centroid fallback produces the returned path — yet the `method` field
still reads `"viterbi_color"`, the tag of the non-fallback colour-DP route:
the fallback is *not* recorded in `method` anywhere in the source. -/
theorem C1_counterexample :
    viterbiDP (chooseMask imgC1 none).1 (find_rhythm_strip (chooseMask imgC1 none).1).1
        (find_rhythm_strip (chooseMask imgC1 none).1).2 30 = none ∧
      (extract_signal imgC1 none 25 10 500).map (fun r => r.method) = some "viterbi_color" ∧
      (extract_signal imgC1 none 25 10 500).map (fun r => r.signal) =
        some [1 / 2, 1 / 2, 1 / 2, 1 / 2] := by
  refine ⟨by decide, by decide, by decide⟩

/-- C1, amended.  When the DP reaches no terminal state the centroid method
transparently replaces it and the returned path still spans the full image
width (gap-free, hence NaN-free in the embedding); but the fallback is *not*
recorded in the result's `method` field, which keeps the tag chosen at the
mask-selection stage.  (The claim's scenario of two disconnected segments
guarantees at least two evidence columns, which is what `hv` states; the
guard `hguard` excludes the images on which the source itself raises.) -/
theorem C1_amended (img : Image) (oracle : Option (List RGB)) (speed gain : ℚ) (fs : ℕ)
    (hdp : viterbiDP (chooseMask img oracle).1 (find_rhythm_strip (chooseMask img oracle).1).1
        (find_rhythm_strip (chooseMask img oracle).1).2 30 = none)
    (hv : 2 ≤ (centroidValid (chooseMask img oracle).1
        (find_rhythm_strip (chooseMask img oracle).1).1
        (find_rhythm_strip (chooseMask img oracle).1).2).length)
    (hguard : ¬(pyInt (((imWidth img : ℚ) / (gridFinal img).1) / speed * fs) ≤ 0 ∨
        imWidth img < 2)) :
    ∃ r, extract_signal img oracle speed gain fs = some r ∧
      r.method = (chooseMask img oracle).2 ∧ r.signal.length = imWidth img := by
  rcases extract_trace_centroid_cases (chooseMask img oracle).1
      (find_rhythm_strip (chooseMask img oracle).1).1
      (find_rhythm_strip (chooseMask img oracle).1).2 with ⟨path, hpath, hlen⟩ | ⟨_, hlt⟩
  · have hp : tracePathOpt (chooseMask img oracle).1
        (find_rhythm_strip (chooseMask img oracle).1).1
        (find_rhythm_strip (chooseMask img oracle).1).2 = some path := by
      rw [tracePathOpt_fallback _ _ _ hdp]
      exact hpath
    refine ⟨_, extract_signal_eq_some img oracle speed gain fs path hp hguard, rfl, ?_⟩
    show path.length = imWidth img
    rw [hlen, maskWidth_chooseMask]
  · omega

/-- C1, witness for the amended claim at the two-segment 125 × 4 image. -/
theorem C1_amended_witness :
    ∃ r, extract_signal imgC1 none 25 10 500 = some r ∧
      r.method = (chooseMask imgC1 none).2 ∧ r.signal.length = imWidth imgC1 :=
  C1_amended imgC1 none 25 10 500 (by decide) (by decide) (by decide)

/-! ## C4: all-background image -/

/-- `chooseMask` with no oracle is the classifier's mask and the default tag. -/
theorem chooseMask_none (img : Image) :
    chooseMask img none = (detect_trace_pixels_color img, "viterbi_color") := by
  simp only [chooseMask]
  split <;> rfl

/-- An insertion sort leaves a list unchanged when the relation holds between
all its elements (in particular under score ties, matching the stability of
Python's sort). -/
theorem insertionSort_all_rel {α : Type} (r : α → α → Prop) [DecidableRel r] (l : List α)
    (h : ∀ a ∈ l, ∀ b ∈ l, r a b) : l.insertionSort r = l := by
  induction l with
  | nil => rfl
  | cons x t ih =>
    show List.orderedInsert r x (t.insertionSort r) = x :: t
    rw [ih (fun a ha b hb =>
      h a (List.mem_cons_of_mem _ ha) b (List.mem_cons_of_mem _ hb))]
    cases t with
    | nil => rfl
    | cons y t2 =>
      show (if r x y then x :: y :: t2 else y :: List.orderedInsert r x t2) = x :: y :: t2
      rw [if_pos (h x (List.mem_cons_self _ _) y
        (List.mem_cons_of_mem _ (List.mem_cons_self _ _)))]

/-- Element of a replicated list. -/
theorem getD_replicate' {α : Type} (n i : ℕ) (c d : α) :
    (List.replicate n c).getD i d = if i < n then c else d := by
  induction n generalizing i with
  | zero => simp
  | succ k ih =>
    cases i with
    | zero => simp [List.replicate_succ]
    | succ j =>
      rw [List.replicate_succ]
      show (List.replicate k c).getD j d = _
      rw [ih j]
      simp [Nat.succ_lt_succ_iff]

/-- A mask equal to an all-false rectangle is pointwise false. -/
theorem mget_allFalse (m : Mask) (H W : ℕ)
    (h : m = List.replicate H (List.replicate W false)) : ∀ y x, mget m y x = false := by
  intro y x
  subst h
  unfold mget
  rw [getD_replicate']
  split
  · rw [getD_replicate']
    split <;> rfl
  · rfl

/-- Linear interpolation of constant data is constant. -/
theorem interpAt_const (c : ℚ) : ∀ (pts : List (ℚ × ℚ)), pts ≠ [] →
    (∀ p ∈ pts, p.2 = c) → ∀ t, interpAt pts t = c := by
  intro pts
  induction pts with
  | nil => intro h; exact absurd rfl h
  | cons p rest ih =>
    intro _ hall t
    rcases p with ⟨x0, v0⟩
    have hv0 : v0 = c := hall (x0, v0) (List.mem_cons_self _ _)
    cases rest with
    | nil => exact hv0
    | cons p2 rest2 =>
      rcases p2 with ⟨x1, v1⟩
      have hv1 : v1 = c :=
        hall (x1, v1) (List.mem_cons_of_mem _ (List.mem_cons_self _ _))
      show (if t ≤ x0 then v0
        else if t ≤ x1 then v0 + (v1 - v0) * (t - x0) / (x1 - x0)
        else interpAt ((x1, v1) :: rest2) t) = c
      split
      · exact hv0
      · split
        · rw [hv0, hv1]
          ring_nf
        · exact ih (by simp) (fun q hq => hall q (List.mem_cons_of_mem _ hq)) t

/-- The fold of `max` over copies of the seed is the seed. -/
theorem foldl_max_self (c : ℚ) (k : ℕ) : (List.replicate k c).foldl max c = c := by
  induction k with
  | zero => rfl
  | succ j ih =>
    rw [List.replicate_succ, List.foldl_cons, max_self]
    exact ih

/-- The fold of `min` over copies of the seed is the seed. -/
theorem foldl_min_self (c : ℚ) (k : ℕ) : (List.replicate k c).foldl min c = c := by
  induction k with
  | zero => rfl
  | succ j ih =>
    rw [List.replicate_succ, List.foldl_cons, min_self]
    exact ih

/-- `np.max` of a constant list. -/
theorem listMax_replicate (n : ℕ) (c : ℚ) (hn : 1 ≤ n) :
    listMax (List.replicate n c) = c := by
  obtain ⟨k, rfl⟩ : ∃ k, n = k + 1 := ⟨n - 1, by omega⟩
  rw [List.replicate_succ]
  show (List.replicate k c).foldl max c = c
  exact foldl_max_self c k

/-- `np.min` of a constant list. -/
theorem listMin_replicate (n : ℕ) (c : ℚ) (hn : 1 ≤ n) :
    listMin (List.replicate n c) = c := by
  obtain ⟨k, rfl⟩ : ∃ k, n = k + 1 := ⟨n - 1, by omega⟩
  rw [List.replicate_succ]
  show (List.replicate k c).foldl min c = c
  exact foldl_min_self c k

/-- `np.median` of a nonempty constant list. -/
theorem npMedian_replicate (n : ℕ) (c : ℚ) (hn : 1 ≤ n) :
    npMedian (List.replicate n c) = c := by
  unfold npMedian
  rw [insertionSort_all_rel _ _ (fun a ha b hb => by
    rw [List.eq_of_mem_replicate ha, List.eq_of_mem_replicate hb])]
  rw [List.length_replicate]
  rw [if_neg (by omega)]
  split
  · rw [getD_replicate']
    rw [if_pos (by omega)]
  · rw [getD_replicate', getD_replicate', if_pos (by omega), if_pos (by omega)]
    ring

/-- `natDist` of equal values. -/
theorem natDist_self (a : ℕ) : natDist a a = 0 := by
  unfold natDist
  omega

/-- No candidates anywhere on an all-false mask. -/
theorem colCandidates_allFalse (m : Mask) (hall : ∀ y x, mget m y x = false) (ys ye x : ℕ) :
    colCandidates m ys ye x = [] := by
  unfold colCandidates
  have hr : regionRows m ys ye x = [] := by
    unfold regionRows
    rw [List.filter_eq_nil]
    intro a _
    simp [hall]
  rw [hr]

/-- The fill step of an all-empty candidate table puts the region midpoint
`region_h // 2` in every column. -/
theorem filledCandidates_allFalse (m : Mask) (hall : ∀ y x, mget m y x = false) (ys ye : ℕ) :
    filledCandidates m ys ye = List.replicate (maskWidth m) [(ye - ys) / 2] := by
  unfold filledCandidates
  have hc : ∀ x, (((List.range (maskWidth m)).map (colCandidates m ys ye)).getD x []) = [] := by
    intro x
    rcases lt_or_ge x (maskWidth m) with hx | hx
    · rw [getD_map_range _ _ _ _ hx]
      exact colCandidates_allFalse m hall ys ye x
    · apply List.getD_eq_default
      rw [List.length_map, List.length_range]
      exact hx
  have hbody : ∀ x ∈ List.range (maskWidth m),
      (match ((List.range (maskWidth m)).map (colCandidates m ys ye)).getD x [] with
        | [] =>
          match
            (((List.range x).reverse.find? (fun lx =>
                !((((List.range (maskWidth m)).map (colCandidates m ys ye)).getD lx []).isEmpty))).map
              (fun lx => (((List.range (maskWidth m)).map (colCandidates m ys ye)).getD lx []).headD 0)),
            (((List.range' (x + 1) (maskWidth m - (x + 1))).find? (fun rx =>
                !((((List.range (maskWidth m)).map (colCandidates m ys ye)).getD rx []).isEmpty))).map
              (fun rx => (((List.range (maskWidth m)).map (colCandidates m ys ye)).getD rx []).headD 0)) with
          | some l, some r => [(l + r) / 2]
          | some l, none => [l]
          | none, some r => [r]
          | none, none => [(ye - ys) / 2]
        | c => c) = [(ye - ys) / 2] := by
    intro x _
    rw [hc x]
    have hfl : ((List.range x).reverse.find? (fun lx =>
        !((((List.range (maskWidth m)).map (colCandidates m ys ye)).getD lx []).isEmpty))) = none := by
      rw [List.find?_eq_none]
      intro a _
      rw [hc a]
      simp
    have hfr : ((List.range' (x + 1) (maskWidth m - (x + 1))).find? (fun rx =>
        !((((List.range (maskWidth m)).map (colCandidates m ys ye)).getD rx []).isEmpty))) = none := by
      rw [List.find?_eq_none]
      intro a _
      rw [hc a]
      simp
    rw [hfl, hfr]
    rfl
  rw [List.map_congr_left hbody, List.map_const', List.length_range]

/-- One DP step over a single repeated candidate. -/
theorem dpStep_single (mj c : ℕ) (q : ℚ) (pr : Option ℕ) :
    dpStep mj [(c, q, pr)] [c] = [(c, q + (natDist c c : ℚ) / 2 + 1, some c)] := by
  unfold dpStep bestPred
  rw [List.filterMap_cons, List.filterMap_nil, List.foldl_cons, List.foldl_nil]
  rw [if_neg (by rw [natDist_self]; omega)]
  rfl

/-- Shape of the DP tables over constant single-candidate columns: one entry
per column, keyed by the candidate, predecessor the candidate itself. -/
theorem dpTablesAux_const_shape (mj c : ℕ) : ∀ (k : ℕ) (q : ℚ) (pr : Option ℕ),
    ∃ costs : List ℚ, costs.length = k ∧
      dpTablesAux mj [(c, q, pr)] (List.replicate k [c]) =
        costs.map (fun cq => [(c, cq, some c)]) := by
  intro k
  induction k with
  | zero => exact fun q pr => ⟨[], rfl, rfl⟩
  | succ j ih =>
    intro q pr
    obtain ⟨costs, hlen, hrec⟩ := ih (q + (natDist c c : ℚ) / 2 + 1) (some c)
    refine ⟨(q + (natDist c c : ℚ) / 2 + 1) :: costs, by simp [hlen], ?_⟩
    rw [List.replicate_succ]
    show dpStep mj [(c, q, pr)] [c] ::
      dpTablesAux mj (dpStep mj [(c, q, pr)] [c]) (List.replicate j [c]) = _
    rw [dpStep_single, hrec]
    rfl

/-- Backtracking through single-entry tables keyed by `c` with predecessor
`c` yields the constant path. -/
theorem backtrackRev_const (c : ℕ) : ∀ (ts : List (List DPEntry)),
    (∀ t ∈ ts, ∃ cq : ℚ, t = [(c, cq, some c)]) →
      backtrackRev (ts ++ [[(c, (0 : ℚ), (none : Option ℕ))]]) c =
        List.replicate (ts.length + 1) c := by
  intro ts
  induction ts with
  | nil =>
    intro _
    show backtrackRev [[(c, (0 : ℚ), (none : Option ℕ))]] c = [c]
    unfold backtrackRev
    simp [List.find?]
  | cons t rest ih =>
    intro h
    obtain ⟨cq, ht⟩ := h t (List.mem_cons_self _ _)
    rw [List.cons_append, ht]
    have hfind : ([((c : ℕ), (cq : ℚ), some c)].find? (fun e => e.1 == c)) =
        some (c, cq, some c) := by simp [List.find?]
    show (match ([((c : ℕ), (cq : ℚ), some c)].find? (fun e => e.1 == c)) with
      | some (_, _, some yp) => c :: backtrackRev (rest ++ [[(c, (0 : ℚ), (none : Option ℕ))]]) yp
      | _ => [c]) = _
    rw [hfind]
    show c :: backtrackRev (rest ++ [[(c, (0 : ℚ), (none : Option ℕ))]]) c = _
    rw [ih (fun t2 ht2 => h t2 (List.mem_cons_of_mem _ ht2))]
    rfl

/-- Padding/truncation is the identity on a list of the right length. -/
theorem padTakeW_self (l : List ℚ) (W : ℕ) (h : l.length = W) : padTakeW l W = l := by
  unfold padTakeW
  rw [h, Nat.sub_self, List.replicate_zero, List.append_nil, ← h, List.take_length]

/-- The DP pipeline on constant single-candidate columns succeeds with the
constant path. -/
theorem dp_match_const (mj c k : ℕ) :
    (match (dpTables mj (List.replicate (k + 1) [c])).getLast? with
      | none => none
      | some last => (firstMinCost last).map
          (fun e => (backtrackRev (dpTables mj (List.replicate (k + 1) [c])).reverse e.1).reverse)) =
      some (List.replicate (k + 1) c) := by
  obtain ⟨costs, hclen, haux⟩ := dpTablesAux_const_shape mj c k 0 none
  have t0eq : dpTables mj (List.replicate (k + 1) [c]) =
      [(c, (0 : ℚ), (none : Option ℕ))] ::
        costs.map (fun cq => [(c, cq, some c)]) := by
    rw [List.replicate_succ]
    show ([c].map (fun y => (y, (0 : ℚ), (none : Option ℕ)))) ::
      dpTablesAux mj ([c].map (fun y => (y, (0 : ℚ), (none : Option ℕ))))
        (List.replicate k [c]) = _
    rw [show [c].map (fun y : ℕ => (y, (0 : ℚ), (none : Option ℕ))) =
      [(c, (0 : ℚ), (none : Option ℕ))] from rfl]
    rw [haux]
  rw [t0eq]
  rcases List.eq_nil_or_concat costs with rfl | ⟨init, d, rfl⟩
  · have hk0 : k = 0 := by simpa using hclen.symm
    subst hk0
    simp only [List.map_nil]
    rw [show ([[(c, (0 : ℚ), (none : Option ℕ))]] : List (List DPEntry)).getLast? =
      some [(c, (0 : ℚ), (none : Option ℕ))] from rfl]
    show (firstMinCost [(c, (0 : ℚ), (none : Option ℕ))]).map
        (fun e => (backtrackRev ([[(c, (0 : ℚ), (none : Option ℕ))]] :
          List (List DPEntry)).reverse e.1).reverse) = _
    rw [show firstMinCost [(c, (0 : ℚ), (none : Option ℕ))] =
      some (c, (0 : ℚ), (none : Option ℕ)) from rfl]
    show some ((backtrackRev ([[(c, (0 : ℚ), (none : Option ℕ))]] :
      List (List DPEntry)).reverse c).reverse) = _
    rw [show ([[(c, (0 : ℚ), (none : Option ℕ))]] : List (List DPEntry)).reverse =
      ([] : List (List DPEntry)) ++ [[(c, (0 : ℚ), (none : Option ℕ))]] from rfl]
    rw [backtrackRev_const c [] (by simp)]
    rfl
  · simp only [List.concat_eq_append] at hclen ⊢
    rw [List.map_append]
    rw [show ((init.map (fun cq => [(c, cq, some c)])) ++ [d].map (fun cq => [(c, cq, some c)])) =
      (init.map (fun cq => [(c, cq, some c)])) ++ [[(c, d, some c)]] from rfl]
    rw [← List.cons_append, List.getLast?_concat]
    show (firstMinCost [(c, d, some c)]).map
        (fun e => (backtrackRev (([(c, (0 : ℚ), (none : Option ℕ))] ::
          (init.map (fun cq => [(c, cq, some c)]) ++ [[(c, d, some c)]])) :
            List (List DPEntry)).reverse e.1).reverse) = _
    rw [show firstMinCost [(c, d, some c)] = some (c, d, some c) from rfl]
    show some ((backtrackRev (([(c, (0 : ℚ), (none : Option ℕ))] ::
      (init.map (fun cq => [(c, cq, some c)]) ++ [[(c, d, some c)]])) :
        List (List DPEntry)).reverse c).reverse) = _
    rw [List.reverse_cons]
    rw [backtrackRev_const c ((init.map (fun cq => [(c, cq, some c)]) ++
      [[(c, d, some c)]]).reverse) ?shapes]
    case shapes =>
      intro t ht
      rw [List.mem_reverse] at ht
      rcases List.mem_append.mp ht with h1 | h1
      · obtain ⟨cq, _, hcq⟩ := List.mem_map.mp h1
        exact ⟨cq, hcq.symm⟩
      · rw [List.mem_singleton] at h1
        exact ⟨d, h1⟩
    rw [List.reverse_replicate]
    have hlen2 : ((init.map (fun cq => [(c, cq, some c)]) ++
        [[(c, d, some c)]]).reverse).length + 1 = k + 1 := by
      rw [List.length_reverse, List.length_append, List.length_map]
      have : init.length + 1 = k := by simpa using hclen
      simp [this]
    rw [hlen2]

/-- The DP of `extract_trace_viterbi` on an all-false mask succeeds and
returns the constant region-midpoint path. -/
theorem viterbiDP_allFalse (m : Mask) (hall : ∀ y x, mget m y x = false) (ys ye mj : ℕ)
    (hW : 1 ≤ maskWidth m) :
    viterbiDP m ys ye mj = some (List.replicate (maskWidth m) ((ye - ys) / 2)) := by
  simp only [viterbiDP]
  rw [filledCandidates_allFalse m hall ys ye]
  obtain ⟨k, hk⟩ : ∃ k, maskWidth m = k + 1 := ⟨maskWidth m - 1, by omega⟩
  rw [hk]
  exact dp_match_const mj ((ye - ys) / 2) k

/-- `np.max` of any number of zeros. -/
theorem listMax_replicate_zero (n : ℕ) : listMax (List.replicate n (0 : ℚ)) = 0 := by
  cases n with
  | zero => rfl
  | succ k => exact listMax_replicate _ _ (by omega)

/-- `np.min` of any number of zeros. -/
theorem listMin_replicate_zero (n : ℕ) : listMin (List.replicate n (0 : ℚ)) = 0 := by
  cases n with
  | zero => rfl
  | succ k => exact listMin_replicate _ _ (by omega)

/-- On a constant pixel path the calibrated, baseline-corrected signal is
identically zero: the resampled signal is constant, and subtracting its
median annihilates it (no amplitude scaling fires on a zero range). -/
theorem calibrateAndScore_const_signal_uV (W : ℕ) (spacing gconf : ℚ) (ys ye : ℕ) (v : ℚ)
    (speed gain : ℚ) (fs : ℕ) (method : String) (hW : 1 ≤ W) :
    (calibrateAndScore W spacing gconf ys ye (List.replicate W v) speed gain fs
        method).signal_uV =
      List.replicate ((pyInt ((((W : ℚ) / spacing) / speed) * fs)).toNat) 0 := by
  simp only [calibrateAndScore]
  rw [List.map_replicate]
  set c : ℚ := (((ys : ℚ) + (ye : ℚ)) / 2 - v) / spacing / gain * 1000 with hc
  set dur : ℚ := ((W : ℚ) / spacing) / speed with hdur
  set n : ℕ := (pyInt (dur * fs)).toNat with hn
  have hs0 : (linspace dur n).map (interpAt ((linspace dur W).zip (List.replicate W c))) =
      List.replicate n c := by
    rw [List.map_congr_left (fun t _ => interpAt_const c _ ?hne ?hall t), List.map_const',
      linspace_length]
    case hne =>
      have hlen : ((linspace dur W).zip (List.replicate W c)).length = W := by
        rw [List.length_zip, linspace_length, List.length_replicate, min_self]
      intro hnil
      rw [hnil] at hlen
      simp at hlen
      omega
    case hall =>
      intro p hp
      exact List.eq_of_mem_replicate (List.of_mem_zip hp).2
  rw [hs0]
  have hs1 : (List.replicate n c).map (fun x => x - npMedian (List.replicate n c)) =
      List.replicate n 0 := by
    rcases Nat.eq_zero_or_pos n with h0 | h1
    · rw [h0]
      rfl
    · rw [npMedian_replicate n c h1, List.map_replicate]
      rw [sub_self]
  rw [hs1]
  have hrange : listMax (List.replicate n 0) - listMin (List.replicate n 0) = 0 := by
    rw [listMax_replicate_zero, listMin_replicate_zero, sub_zero]
  rw [hrange]
  rw [if_pos (by norm_num : (0 : ℚ) < 200)]
  rw [if_neg (by norm_num : ¬(0 : ℚ) > 0)]

/-- On a constant pixel path the quality score is
`0.3 · grid_confidence + 0.49`: final range 0 gives `range_quality = 0.3` and
the gap-free path gives coverage 1. -/
theorem calibrateAndScore_const_quality (W : ℕ) (spacing gconf : ℚ) (ys ye : ℕ) (v : ℚ)
    (speed gain : ℚ) (fs : ℕ) (method : String) (hW : 1 ≤ W) :
    (calibrateAndScore W spacing gconf ys ye (List.replicate W v) speed gain fs
        method).quality_score = gconf * (3 / 10) + 49 / 100 := by
  rw [calibrateAndScore_quality]
  rw [calibrateAndScore_const_signal_uV W spacing gconf ys ye v speed gain fs method hW]
  rw [listMax_replicate_zero, listMin_replicate_zero, sub_zero]
  rw [if_neg (by norm_num : ¬(0 : ℚ) > 500)]
  rw [List.length_replicate]
  rw [div_self (Nat.cast_ne_zero.mpr (by omega : W ≠ 0) : ((W : ℚ)) ≠ 0)]
  have : (1 : ℚ) * (4 / 10) + 3 / 10 * (3 / 10) = 49 / 100 := by norm_num
  linarith

/-- C4, counterexample.  On the all-white 5 × 5 image the trace mask is empty,
the selected region is `(0, 1)`, and the returned path is constantly 0 — the
*floor* of the region midpoint `(0 + 1)/2 = 0.5`, reached through the DP's
`region_h // 2` fill, not the midpoint itself — while the quality score is
`0.58`, not `< 0.5` (coverage of the gap-free path is 1, not 0). -/
theorem C4_counterexample :
    detect_trace_pixels_color aw55 = List.replicate 5 (List.replicate 5 false) ∧
      find_rhythm_strip (detect_trace_pixels_color aw55) = (0, 1) ∧
      (extract_signal aw55 none 25 10 1).map (fun r => r.signal) =
        some (List.replicate 5 (0 : ℚ)) ∧
      ((0 : ℚ) + 1) / 2 ≠ 0 ∧
      (extract_signal aw55 none 25 10 1).map (fun r => r.quality_score) = some (29 / 50) ∧
      ¬((29 : ℚ) / 50 < 1 / 2) :=
  ⟨by decide, by decide, by decide, by norm_num, by decide, by norm_num⟩

/-- C4, amended.  For every image whose trace mask is false everywhere (height
at least 5), a successful default-parameter extraction returns the constant
path at `y_start + (y_end - y_start) // 2` — the integer floor of the region
midpoint, produced by the DP over midpoint-filled candidates — and its
quality score is `0.3·grid_confidence + 0.49`, which is not below 0.5 once
the grid confidence reaches `1/30` (the grid-fallback confidence alone is
0.3, giving 0.58). -/
theorem C4_amended (img : Image) (speed gain : ℚ) (fs : ℕ) (r : ExtractionResult)
    (hall : ∀ y x, mget (detect_trace_pixels_color img) y x = false)
    (hH : 5 ≤ (detect_trace_pixels_color img).length)
    (h : extract_signal img none speed gain fs = some r) :
    r.signal = List.replicate (imWidth img)
        ((((find_rhythm_strip (detect_trace_pixels_color img)).2 -
            (find_rhythm_strip (detect_trace_pixels_color img)).1) / 2 +
          (find_rhythm_strip (detect_trace_pixels_color img)).1 : ℕ) : ℚ) ∧
      r.quality_score = (gridFinal img).2 * (3 / 10) + 49 / 100 := by
  obtain ⟨tp, htp, hguard, hre⟩ := extract_signal_some_inv img none speed gain fs r h
  have hW2 : 2 ≤ imWidth img := by
    rcases not_or.mp hguard with ⟨-, h2⟩
    omega
  have hWm : maskWidth (detect_trace_pixels_color img) = imWidth img := by
    have hmc := maskWidth_chooseMask img none
    rw [chooseMask_none] at hmc
    exact hmc
  rw [chooseMask_none] at htp hre
  dsimp only at htp hre
  have hdp := viterbiDP_allFalse (detect_trace_pixels_color img) hall
    (find_rhythm_strip (detect_trace_pixels_color img)).1
    (find_rhythm_strip (detect_trace_pixels_color img)).2 30 (by omega)
  have hvit : extract_trace_viterbi (detect_trace_pixels_color img)
      (find_rhythm_strip (detect_trace_pixels_color img)).1
      (find_rhythm_strip (detect_trace_pixels_color img)).2 30 =
      some (List.replicate (imWidth img)
        ((((find_rhythm_strip (detect_trace_pixels_color img)).2 -
            (find_rhythm_strip (detect_trace_pixels_color img)).1) / 2 +
          (find_rhythm_strip (detect_trace_pixels_color img)).1 : ℕ) : ℚ)) := by
    unfold extract_trace_viterbi
    rw [hdp]
    show some (padTakeW ((List.replicate (maskWidth (detect_trace_pixels_color img))
        (((find_rhythm_strip (detect_trace_pixels_color img)).2 -
          (find_rhythm_strip (detect_trace_pixels_color img)).1) / 2)).map
        (fun y => ((y + (find_rhythm_strip (detect_trace_pixels_color img)).1 : ℕ) : ℚ)))
      (maskWidth (detect_trace_pixels_color img))) = _
    rw [List.map_replicate]
    rw [padTakeW_self _ _ (by rw [List.length_replicate])]
    rw [hWm]
  have htpo : tracePathOpt (detect_trace_pixels_color img)
      (find_rhythm_strip (detect_trace_pixels_color img)).1
      (find_rhythm_strip (detect_trace_pixels_color img)).2 =
      some (List.replicate (imWidth img)
        ((((find_rhythm_strip (detect_trace_pixels_color img)).2 -
            (find_rhythm_strip (detect_trace_pixels_color img)).1) / 2 +
          (find_rhythm_strip (detect_trace_pixels_color img)).1 : ℕ) : ℚ)) := by
    unfold tracePathOpt
    rw [hvit]
  have htpe : tp = List.replicate (imWidth img)
      ((((find_rhythm_strip (detect_trace_pixels_color img)).2 -
          (find_rhythm_strip (detect_trace_pixels_color img)).1) / 2 +
        (find_rhythm_strip (detect_trace_pixels_color img)).1 : ℕ) : ℚ) := by
    have := htp.symm.trans htpo
    exact Option.some_inj.mp this
  constructor
  · rw [hre]
    show tp = _
    exact htpe
  · rw [hre, htpe]
    exact calibrateAndScore_const_quality _ _ _ _ _ _ _ _ _ _ (by omega)

/-- C4, witness for the amended claim at the all-white 5 × 5 image. -/
theorem C4_amended_witness :
    ((extract_signal aw55 none 25 10 1).get (by decide)).signal =
        List.replicate (imWidth aw55)
          ((((find_rhythm_strip (detect_trace_pixels_color aw55)).2 -
              (find_rhythm_strip (detect_trace_pixels_color aw55)).1) / 2 +
            (find_rhythm_strip (detect_trace_pixels_color aw55)).1 : ℕ) : ℚ) ∧
      ((extract_signal aw55 none 25 10 1).get (by decide)).quality_score =
        (gridFinal aw55).2 * (3 / 10) + 49 / 100 :=
  C4_amended aw55 25 10 1 _
    (mget_allFalse _ 5 5 (by decide)) (by decide) (Option.some_get (by decide)).symm

/-! ## C10: region bounds -/

/-- The mean of a list lies between bounds on its elements. -/
theorem meanQ_bounds (l : List ℚ) (hne : l ≠ []) (a b : ℚ)
    (h : ∀ v ∈ l, a ≤ v ∧ v ≤ b) : a ≤ meanQ l ∧ meanQ l ≤ b := by
  have hlen : 0 < (l.length : ℚ) := by
    have : 0 < l.length := List.length_pos.mpr hne
    exact_mod_cast this
  have hsumu : l.sum ≤ (l.length : ℚ) * b := by
    have := List.sum_le_card_nsmul l b (fun x hx => (h x hx).2)
    simpa [nsmul_eq_mul] using this
  have hsuml : (l.length : ℚ) * a ≤ l.sum := by
    have := List.card_nsmul_le_sum l a (fun x hx => (h x hx).1)
    simpa [nsmul_eq_mul] using this
  unfold meanQ
  constructor
  · rw [le_div_iff hlen]
    linarith
  · rw [div_le_iff hlen]
    linarith

/-- A centroid value, when present, lies inside the region. -/
theorem centroidTraceY_bound (m : Mask) (ys ye x : ℕ) (q : ℚ) (hys : ys < ye)
    (h : (centroidTraceY m ys ye).getD x none = some q) : (ys : ℚ) ≤ q ∧ q ≤ (ye : ℚ) := by
  unfold centroidTraceY at h
  rcases lt_or_ge x (maskWidth m) with hx | hx
  · rw [getD_map_range _ _ _ _ hx] at h
    by_cases he : (regionRows m ys ye x).isEmpty
    · rw [if_pos he] at h
      exact absurd h (by simp)
    · rw [if_neg he] at h
      rw [Option.some_inj] at h
      have hmean := meanQ_bounds ((regionRows m ys ye x).map (fun r : ℕ => (r : ℚ)))
        (by
          intro hc
          rw [List.map_eq_nil] at hc
          rw [hc] at he
          exact he rfl) 0 ((ye : ℚ) - ys)
        (by
          intro v hv
          obtain ⟨r, hr, hre⟩ := List.mem_map.mp hv
          have hrlt : r < ye - ys := List.mem_range.mp (List.mem_of_mem_filter hr)
          constructor
          · rw [← hre]; positivity
          · rw [← hre]
            have h1 : (r : ℚ) < ((ye - ys : ℕ) : ℚ) := by exact_mod_cast hrlt
            have h2 : ((ye - ys : ℕ) : ℚ) = (ye : ℚ) - ys := by
              rw [Nat.cast_sub (le_of_lt hys)]
            linarith)
      rw [← h]
      constructor
      · linarith [hmean.1]
      · linarith [hmean.2]
  · rw [List.getD_eq_default] at h
    · exact absurd h (by simp)
    · rw [List.length_map, List.length_range]
      exact hx

/-- Linear interpolation with edge fill stays between bounds on the data when
the knot abscissae are strictly increasing. -/
theorem interpAt_bounds (lo hi : ℚ) : ∀ (pts : List (ℚ × ℚ)) (t : ℚ), pts ≠ [] →
    List.Pairwise (fun p q : ℚ × ℚ => p.1 < q.1) pts →
    (∀ p ∈ pts, lo ≤ p.2 ∧ p.2 ≤ hi) →
    lo ≤ interpAt pts t ∧ interpAt pts t ≤ hi := by
  intro pts
  induction pts with
  | nil => intro t h; exact absurd rfl h
  | cons p rest ih =>
    intro t _ hpw hb
    rcases p with ⟨x0, v0⟩
    have hv0 := hb (x0, v0) (List.mem_cons_self _ _)
    cases rest with
    | nil => exact hv0
    | cons p2 rest2 =>
      rcases p2 with ⟨x1, v1⟩
      have hv1 := hb (x1, v1) (List.mem_cons_of_mem _ (List.mem_cons_self _ _))
      have hx01 : x0 < x1 :=
        (List.pairwise_cons.mp hpw).1 (x1, v1) (List.mem_cons_self _ _)
      show lo ≤ (if t ≤ x0 then v0
          else if t ≤ x1 then v0 + (v1 - v0) * (t - x0) / (x1 - x0)
          else interpAt ((x1, v1) :: rest2) t) ∧
        (if t ≤ x0 then v0
          else if t ≤ x1 then v0 + (v1 - v0) * (t - x0) / (x1 - x0)
          else interpAt ((x1, v1) :: rest2) t) ≤ hi
      split
      · exact hv0
      · split
        · next hgt hle =>
          push_neg at hgt
          have hd : (0 : ℚ) < x1 - x0 := by linarith
          set d : ℚ := (t - x0) / (x1 - x0) with hdd
          have hd0 : 0 ≤ d := div_nonneg (by linarith) (le_of_lt hd)
          have hd1 : d ≤ 1 := by
            rw [hdd, div_le_one hd]
            linarith
          have hval : v0 + (v1 - v0) * (t - x0) / (x1 - x0) = v0 * (1 - d) + v1 * d := by
            rw [hdd]
            field_simp
            ring
          rw [hval]
          constructor
          · have : lo = lo * (1 - d) + lo * d := by ring
            rw [this]
            have h1 : lo * (1 - d) ≤ v0 * (1 - d) :=
              mul_le_mul_of_nonneg_right hv0.1 (by linarith)
            have h2 : lo * d ≤ v1 * d := mul_le_mul_of_nonneg_right hv1.1 hd0
            linarith
          · have : hi = hi * (1 - d) + hi * d := by ring
            rw [this]
            have h1 : v0 * (1 - d) ≤ hi * (1 - d) :=
              mul_le_mul_of_nonneg_right hv0.2 (by linarith)
            have h2 : v1 * d ≤ hi * d := mul_le_mul_of_nonneg_right hv1.2 hd0
            linarith
        · exact ih t (by simp) (List.pairwise_cons.mp hpw).2
            (fun q hq => hb q (List.mem_cons_of_mem _ hq))

/-- The median of five values is at most any common upper bound and at least
`lo` provided at most two of the five fall below `lo`. -/
theorem med5_bounds (a b c d e lo hi : ℚ)
    (hhi : ∀ v ∈ [a, b, c, d, e], v ≤ hi)
    (hcnt : (([a, b, c, d, e] : List ℚ).countP (fun v => decide (v < lo))) ≤ 2) :
    lo ≤ med5 a b c d e ∧ med5 a b c d e ≤ hi := by
  unfold med5
  have hperm := List.perm_insertionSort (fun v w : ℚ => v ≤ w) [a, b, c, d, e]
  have hsort := List.sorted_insertionSort (fun v w : ℚ => v ≤ w) [a, b, c, d, e]
  have hlen : (([a, b, c, d, e] : List ℚ).insertionSort (· ≤ ·)).length = 5 := by
    rw [hperm.length_eq]
    rfl
  rcases hs : ([a, b, c, d, e] : List ℚ).insertionSort (· ≤ ·) with _ | ⟨w, _ | ⟨x, _ | ⟨y, rest⟩⟩⟩
  · rw [hs] at hlen; simp at hlen
  · rw [hs] at hlen; simp at hlen
  · rw [hs] at hlen; simp at hlen
  · rw [hs] at hperm hsort
    have hyg : (w :: x :: y :: rest).getD 2 0 = y := rfl
    rw [hyg]
    constructor
    · by_contra hlt
      push_neg at hlt
      have hwy : w ≤ y := by
        rcases List.sorted_cons.mp hsort with ⟨hw, _⟩
        exact hw y (List.mem_cons_of_mem _ (List.mem_cons_self _ _))
      have hxy : x ≤ y := by
        rcases List.sorted_cons.mp hsort with ⟨_, hrest⟩
        rcases List.sorted_cons.mp hrest with ⟨hx, _⟩
        exact hx y (List.mem_cons_self _ _)
      have h3 : 3 ≤ (w :: x :: y :: rest).countP (fun v => decide (v < lo)) := by
        simp only [List.countP_cons]
        have hw' : (fun v => decide (v < lo)) w = true := by simp; linarith
        have hx' : (fun v => decide (v < lo)) x = true := by simp; linarith
        have hy' : (fun v => decide (v < lo)) y = true := by simp; linarith
        simp [List.countP_cons, hw', hx', hy']
      rw [hperm.countP_eq] at h3
      omega
    · have hym : y ∈ (w :: x :: y :: rest) :=
        List.mem_cons_of_mem _ (List.mem_cons_of_mem _ (List.mem_cons_self _ _))
      exact hhi y (hperm.mem_iff.mp hym)

/-- A padded window read is an element of the list or the padding value 0. -/
theorem gQ_mem_or_zero (l : List ℚ) (j : ℤ) : gQ l j ∈ l ∨ gQ l j = 0 := by
  unfold gQ
  split
  · by_cases h : j.toNat < l.length
    · left
      rw [List.getD_eq_get?, List.get?_eq_get h]
      exact List.get_mem l _ h
    · right
      exact List.getD_eq_default l 0 (by omega)
  · right
    rfl

/-- A padded window read is bounded above by any nonnegative bound on the
list entries. -/
theorem gQ_le (l : List ℚ) (hi : ℚ) (h0 : 0 ≤ hi) (h : ∀ v ∈ l, v ≤ hi) (j : ℤ) :
    gQ l j ≤ hi := by
  rcases gQ_mem_or_zero l j with hm | hz
  · exact h _ hm
  · rw [hz]; exact h0

/-- An in-range padded window read is a real entry and keeps the lower bound. -/
theorem gQ_ge (l : List ℚ) (lo : ℚ) (h : ∀ v ∈ l, lo ≤ v) (j : ℤ)
    (hj : 0 ≤ j) (hjl : j.toNat < l.length) : lo ≤ gQ l j := by
  unfold gQ
  rw [if_pos hj, List.getD_eq_get?, List.get?_eq_get hjl]
  exact h _ (List.get_mem l _ hjl)

/-- If three consecutive window positions fail a predicate then at most two of
the five can satisfy it. -/
theorem countP_five_le_two (p : ℚ → Bool) (a b c d e : ℚ)
    (h : (p a = false ∧ p b = false ∧ p c = false) ∨
         (p b = false ∧ p c = false ∧ p d = false) ∨
         (p c = false ∧ p d = false ∧ p e = false)) :
    List.countP p [a, b, c, d, e] ≤ 2 := by
  rcases h with ⟨h1, h2, h3⟩ | ⟨h1, h2, h3⟩ | ⟨h1, h2, h3⟩ <;>
    simp [List.countP_cons, h1, h2, h3] <;> split_ifs <;> omega

/-- The width-5 zero-padded median filter keeps values inside `[lo, hi]` when
`0 ≤ lo ≤ hi` and the input has at least three entries: every window holds at
least three real entries, so the spurious padding zeros cannot become the
median from below, and zero cannot exceed `hi`. -/
theorem medfilt5_bounds (l : List ℚ) (lo hi : ℚ) (hlo : 0 ≤ lo) (hlh : lo ≤ hi)
    (hl : ∀ v ∈ l, lo ≤ v ∧ v ≤ hi) (hW : 3 ≤ l.length) :
    ∀ v ∈ medfilt5 l, lo ≤ v ∧ v ≤ hi := by
  intro v hv
  unfold medfilt5 at hv
  rcases List.mem_map.mp hv with ⟨i, hilt, rfl⟩
  rw [List.mem_range] at hilt
  apply med5_bounds
  · intro w hw
    have hhi : ∀ u ∈ l, u ≤ hi := fun u hu => (hl u hu).2
    have h0 : (0 : ℚ) ≤ hi := le_trans hlo hlh
    simp only [List.mem_cons, List.not_mem_nil, or_false] at hw
    rcases hw with rfl | rfl | rfl | rfl | rfl <;> exact gQ_le l hi h0 hhi _
  · apply countP_five_le_two
    have hge : ∀ u ∈ l, lo ≤ u := fun u hu => (hl u hu).1
    have hfalse : ∀ (j : ℤ), 0 ≤ j → j.toNat < l.length →
        (fun w : ℚ => decide (w < lo)) (gQ l j) = false := by
      intro j hj hjl
      exact decide_eq_false (not_lt.mpr (gQ_ge l lo hge j hj hjl))
    rcases Nat.lt_or_ge i 1 with h1 | h1
    · right; right
      have hi0 : i = 0 := by omega
      subst hi0
      exact ⟨hfalse 0 (by omega) (by omega), hfalse (0 + 1) (by omega) (by omega),
        hfalse (0 + 2) (by omega) (by omega)⟩
    · rcases Nat.lt_or_ge i 2 with h2 | h2
      · right; left
        have hi1 : i = 1 := by omega
        subst hi1
        exact ⟨hfalse ((1 : ℕ) - 1 : ℤ) (by omega) (by omega),
          hfalse (1 : ℕ) (by omega) (by omega),
          hfalse ((1 : ℕ) + 1 : ℤ) (by omega) (by omega)⟩
      · left
        refine ⟨hfalse ((i : ℤ) - 2) (by omega) (by omega),
          hfalse ((i : ℤ) - 1) (by omega) (by omega),
          hfalse (i : ℤ) (by omega) (by omega)⟩

/-- Rows selected for a region are region-relative, below `ye - ys`. -/
theorem regionRows_lt (m : Mask) (ys ye x : ℕ) :
    ∀ r ∈ regionRows m ys ye x, r < ye - ys := by
  intro r hr
  exact List.mem_range.mp (List.mem_of_mem_filter hr)

/-- Every row of every cluster comes from the accumulator or the input. -/
theorem clusterGroups_sub : ∀ (rest cur : List ℕ), ∀ g ∈ clusterGroups cur rest,
    ∀ r ∈ g, r ∈ cur ∨ r ∈ rest := by
  intro rest
  induction rest with
  | nil =>
    intro cur g hg r hr
    simp only [clusterGroups, List.mem_singleton] at hg
    subst hg
    exact Or.inl (List.mem_reverse.mp hr)
  | cons a t ih =>
    intro cur g hg r hr
    cases cur with
    | nil =>
      have hg' : g ∈ clusterGroups [a] t := by simpa [clusterGroups] using hg
      rcases ih [a] g hg' r hr with h | h
      · rw [List.mem_singleton] at h
        exact Or.inr (h ▸ List.mem_cons_self a t)
      · exact Or.inr (List.mem_cons_of_mem a h)
    | cons c ctail =>
      by_cases hle : a - c ≤ 3
      · have hg' : g ∈ clusterGroups (a :: c :: ctail) t := by
          simpa [clusterGroups, hle] using hg
        rcases ih _ g hg' r hr with h | h
        · rcases List.mem_cons.mp h with h' | h'
          · exact Or.inr (h' ▸ List.mem_cons_self a t)
          · exact Or.inl h'
        · exact Or.inr (List.mem_cons_of_mem a h)
      · have hg' : g ∈ (c :: ctail).reverse :: clusterGroups [a] t := by
          simpa [clusterGroups, hle] using hg
        rcases List.mem_cons.mp hg' with h | h
        · subst h
          exact Or.inl (List.mem_reverse.mp hr)
        · rcases ih [a] g h r hr with h' | h'
          · rw [List.mem_singleton] at h'
            exact Or.inr (h' ▸ List.mem_cons_self a t)
          · exact Or.inr (List.mem_cons_of_mem a h')

/-- Started from a nonempty accumulator, every cluster is nonempty. -/
theorem clusterGroups_ne_nil : ∀ (rest cur : List ℕ), cur ≠ [] →
    ∀ g ∈ clusterGroups cur rest, g ≠ [] := by
  intro rest
  induction rest with
  | nil =>
    intro cur hc g hg
    simp only [clusterGroups, List.mem_singleton] at hg
    subst hg
    simpa using hc
  | cons a t ih =>
    intro cur hc g hg
    cases cur with
    | nil => exact absurd rfl hc
    | cons c ctail =>
      by_cases hle : a - c ≤ 3
      · exact ih (a :: c :: ctail) (by simp) g (by simpa [clusterGroups, hle] using hg)
      · have hg' : g ∈ (c :: ctail).reverse :: clusterGroups [a] t := by
          simpa [clusterGroups, hle] using hg
        rcases List.mem_cons.mp hg' with h | h
        · subst h; simp
        · exact ih [a] (by simp) g h

/-- A truncated mean of naturals all below `B` stays below `B`. -/
theorem natMean_lt (g : List ℕ) (B : ℕ) (hg : g ≠ []) (hB : ∀ r ∈ g, r < B) :
    g.sum / g.length < B := by
  have hlen : 0 < g.length := List.length_pos.mpr hg
  have hsum : g.sum ≤ g.length * (B - 1) := by
    have := List.sum_le_card_nsmul g (B - 1) (fun x hx => by have := hB x hx; omega)
    simpa [smul_eq_mul] using this
  have hB0 : 0 < B := by
    rcases g with - | ⟨r, tl⟩
    · exact absurd rfl hg
    · have := hB r (List.mem_cons_self _ _); omega
  rw [Nat.div_lt_iff_lt_mul hlen]
  have h2 : g.length * (B - 1) < g.length * B :=
    mul_lt_mul_of_pos_left (by omega) hlen
  calc g.sum ≤ g.length * (B - 1) := hsum
  _ < g.length * B := h2
  _ = B * g.length := Nat.mul_comm _ _

/-- Per-column cluster candidates stay inside the region height. -/
theorem colCandidates_lt (m : Mask) (ys ye x : ℕ) :
    ∀ c ∈ colCandidates m ys ye x, c < ye - ys := by
  intro c hc
  unfold colCandidates at hc
  revert hc
  rcases hreg : regionRows m ys ye x with - | ⟨r, rest⟩
  · intro hc; simp at hc
  · intro hc
    obtain ⟨g, hg, hgc⟩ := List.mem_map.mp hc
    rw [← hgc]
    apply natMean_lt g (ye - ys) (clusterGroups_ne_nil rest [r] (by simp) g hg)
    intro rr hrr
    have hmem : rr ∈ regionRows m ys ye x := by
      rw [hreg]
      rcases clusterGroups_sub rest [r] g hg rr hrr with h | h
      · rw [List.mem_singleton] at h
        exact h ▸ List.mem_cons_self r rest
      · exact List.mem_cons_of_mem r h
    exact regionRows_lt m ys ye x rr hmem


/-- A head taken from a found nonempty column's candidate list stays inside
the region height. -/
theorem headD_cands_lt (m : Mask) (ys ye lx : ℕ)
    (hne : (((List.range (maskWidth m)).map (colCandidates m ys ye)).getD lx []).isEmpty = false)
    (hlx : lx < maskWidth m) :
    (((List.range (maskWidth m)).map (colCandidates m ys ye)).getD lx []).headD 0 < ye - ys := by
  rw [getD_map_range _ _ _ _ hlx] at hne ⊢
  rcases hcc : colCandidates m ys ye lx with - | ⟨c0, crest⟩
  · rw [hcc] at hne; simp at hne
  · exact colCandidates_lt m ys ye lx c0 (by rw [hcc]; exact List.mem_cons_self c0 crest)

/-- After the empty-column fill every candidate of every column stays inside
the region height. -/
theorem filledCandidates_lt (m : Mask) (ys ye : ℕ) (hys : ys < ye) :
    ∀ l ∈ filledCandidates m ys ye, ∀ c ∈ l, c < ye - ys := by
  intro l hl c hc
  have hB : 1 ≤ ye - ys := by omega
  simp only [filledCandidates] at hl
  obtain ⟨x, hx, hlx⟩ := List.mem_map.mp hl
  rw [List.mem_range] at hx
  rw [getD_map_range (colCandidates m ys ye) _ x [] hx] at hlx
  revert hlx
  rcases hcc : colCandidates m ys ye x with - | ⟨c0, crest⟩
  · split
    · split
      · next lo ro lv rv hfl hfr =>
        intro hlx
        rw [← hlx, List.mem_singleton] at hc
        obtain ⟨lx, hlfind, hlv⟩ := Option.map_eq_some'.mp hfl
        obtain ⟨rx, hrfind, hrv⟩ := Option.map_eq_some'.mp hfr
        have hlxmem := List.mem_of_find?_eq_some hlfind
        rw [List.mem_reverse, List.mem_range] at hlxmem
        have hrxmem := List.mem_of_find?_eq_some hrfind
        have hrxW : rx < maskWidth m := by
          rcases List.mem_range'_1.mp hrxmem with ⟨h1, h2⟩
          omega
        have hlprop := List.find?_some hlfind
        have hrprop := List.find?_some hrfind
        simp only [Bool.not_eq_eq_eq_not, Bool.not_true] at hlprop hrprop
        have hlvlt : lv < ye - ys := by
          rw [← hlv]
          exact headD_cands_lt m ys ye lx hlprop (by omega)
        have hrvlt : rv < ye - ys := by
          rw [← hrv]
          exact headD_cands_lt m ys ye rx hrprop hrxW
        omega
      · next lo ro lv hfl hfr =>
        intro hlx
        rw [← hlx, List.mem_singleton] at hc
        obtain ⟨lx, hlfind, hlv⟩ := Option.map_eq_some'.mp hfl
        have hlxmem := List.mem_of_find?_eq_some hlfind
        rw [List.mem_reverse, List.mem_range] at hlxmem
        have hlprop := List.find?_some hlfind
        simp only [Bool.not_eq_eq_eq_not, Bool.not_true] at hlprop
        rw [hc, ← hlv]
        exact headD_cands_lt m ys ye lx hlprop (by omega)
      · next lo ro rv hfl hfr =>
        intro hlx
        rw [← hlx, List.mem_singleton] at hc
        obtain ⟨rx, hrfind, hrv⟩ := Option.map_eq_some'.mp hfr
        have hrxmem := List.mem_of_find?_eq_some hrfind
        have hrxW : rx < maskWidth m := by
          rcases List.mem_range'_1.mp hrxmem with ⟨h1, h2⟩
          omega
        have hrprop := List.find?_some hrfind
        simp only [Bool.not_eq_eq_eq_not, Bool.not_true] at hrprop
        rw [hc, ← hrv]
        exact headD_cands_lt m ys ye rx hrprop hrxW
      · next lo ro hfl hfr =>
        intro hlx
        rw [← hlx, List.mem_singleton] at hc
        omega
    · next a h => exact absurd rfl h
  · intro hlx
    rw [← hlx] at hc
    exact colCandidates_lt m ys ye x c (hcc ▸ hc)

/-- A DP step keeps candidates and predecessor pointers below any common
bound on the candidate values. -/
theorem dpStep_bound (mj : ℕ) (prev : List DPEntry) (cands : List ℕ) (B : ℕ)
    (hc : ∀ c ∈ cands, c < B) (hp : ∀ e ∈ prev, e.1 < B) :
    ∀ e ∈ dpStep mj prev cands, e.1 < B ∧ ∀ yp, e.2.2 = some yp → yp < B := by
  intro e he
  obtain ⟨hy, yp, hyp, -, pe, hpe, hpe1⟩ := dpStep_entry mj prev cands e he
  refine ⟨hc _ hy, fun yq hyq => ?_⟩
  rw [hyp, Option.some_inj] at hyq
  rw [← hyq, ← hpe1]
  exact hp pe hpe

/-- All tables built from bounded candidates hold bounded entries and bounded
predecessor pointers. -/
theorem dpTablesAux_bound (mj B : ℕ) (cs : List (List ℕ)) :
    ∀ (tbl : List DPEntry), (∀ l ∈ cs, ∀ c ∈ l, c < B) → (∀ e ∈ tbl, e.1 < B) →
    ∀ t ∈ dpTablesAux mj tbl cs, ∀ e ∈ t, e.1 < B ∧ ∀ yp, e.2.2 = some yp → yp < B := by
  induction cs with
  | nil =>
    intro tbl _ _ t ht
    simp [dpTablesAux] at ht
  | cons c cs ih =>
    intro tbl hcs htbl t ht
    have hstep := dpStep_bound mj tbl c B (fun y hy => hcs c (List.mem_cons_self _ _) y hy) htbl
    simp only [dpTablesAux] at ht
    rcases List.mem_cons.mp ht with rfl | h
    · exact hstep
    · exact ih (dpStep mj tbl c) (fun l hl => hcs l (List.mem_cons_of_mem _ hl))
        (fun e he => (hstep e he).1) t h

/-- Entry and predecessor bound over the full table list. -/
theorem dpTables_bound (mj B : ℕ) (cands : List (List ℕ))
    (hc : ∀ l ∈ cands, ∀ c ∈ l, c < B) :
    ∀ t ∈ dpTables mj cands, ∀ e ∈ t, e.1 < B ∧ ∀ yp, e.2.2 = some yp → yp < B := by
  cases cands with
  | nil => intro t ht; simp [dpTables] at ht
  | cons c0 cs =>
    intro t ht
    simp only [dpTables] at ht
    have ht0 : ∀ e ∈ c0.map (fun y => ((y, (0 : ℚ), none) : DPEntry)), e.1 < B := by
      intro e he
      obtain ⟨y, hy, rfl⟩ := List.mem_map.mp he
      exact hc c0 (List.mem_cons_self _ _) y hy
    rcases List.mem_cons.mp ht with rfl | h
    · intro e he
      refine ⟨ht0 e he, ?_⟩
      obtain ⟨y, hy, rfl⟩ := List.mem_map.mp he
      intro yp hyp
      simp at hyp
    · exact dpTablesAux_bound mj B cs _ (fun l hl => hc l (List.mem_cons_of_mem _ hl)) ht0 t h

/-- The first-minimum selection returns a member of the table. -/
theorem firstMinCost_mem (tbl : List DPEntry) (e : DPEntry)
    (h : firstMinCost tbl = some e) : e ∈ tbl := by
  unfold firstMinCost at h
  revert h
  have := foldl_invariant
    (fun acc : Option DPEntry => ∀ q : DPEntry, acc = some q → q ∈ tbl)
    (fun acc e =>
      match acc with
      | none => some e
      | some b => if e.2.1 < b.2.1 then some e else acc)
    tbl none (fun q hq => by simp at hq)
    (fun b hb a ha => by
      intro q hq
      cases b with
      | none =>
        rw [Option.some_inj] at hq
        exact hq ▸ ha
      | some b' =>
        dsimp at hq
        split at hq
        · rw [Option.some_inj] at hq
          exact hq ▸ ha
        · exact hb q hq)
  intro h
  exact this e h

/-- A defined last element is a member. -/
theorem getLastSomeMem {α : Type} : ∀ (l : List α) (a : α), l.getLast? = some a → a ∈ l := by
  intro l
  induction l with
  | nil => intro a h; simp at h
  | cons x t ih =>
    intro a h
    cases t with
    | nil =>
      simp [List.getLast?] at h
      exact h ▸ List.mem_singleton_self x
    | cons y tt =>
      rw [List.getLast?_cons_cons] at h
      exact List.mem_cons_of_mem _ (ih a h)

/-- Backtracking from a bounded candidate through bounded predecessor
pointers yields only bounded values. -/
theorem backtrackRev_bound (B : ℕ) : ∀ (ts : List (List DPEntry)),
    (∀ t ∈ ts, ∀ e ∈ t, ∀ yp, e.2.2 = some yp → yp < B) →
    ∀ y, y < B → ∀ v ∈ backtrackRev ts y, v < B := by
  intro ts
  induction ts with
  | nil =>
    intro _ y hy v hv
    simp [backtrackRev] at hv
    exact hv ▸ hy
  | cons tbl rest ih =>
    intro hts y hy v hv
    unfold backtrackRev at hv
    split at hv
    · next e c yp hfind =>
      rcases List.mem_cons.mp hv with rfl | h
      · exact hy
      · have hypB : yp < B :=
          hts tbl (List.mem_cons_self _ _) _ (List.mem_of_find?_eq_some hfind) yp rfl
        exact ih (fun t ht => hts t (List.mem_cons_of_mem _ ht)) yp hypB v h
    · rw [List.mem_singleton] at hv
      exact hv ▸ hy

/-- A successful DP returns a nonempty path of region-relative rows below the
region height. -/
theorem viterbiDP_bound (m : Mask) (ys ye mj : ℕ) (q : List ℕ) (hys : ys < ye)
    (h : viterbiDP m ys ye mj = some q) : q ≠ [] ∧ ∀ y ∈ q, y < ye - ys := by
  simp only [viterbiDP] at h
  split at h
  · simp at h
  · next last hlast =>
    obtain ⟨e, he, hq⟩ := Option.map_eq_some'.mp h
    have hbound := dpTables_bound mj (ye - ys) (filledCandidates m ys ye)
      (filledCandidates_lt m ys ye hys)
    have hlastmem : last ∈ dpTables mj (filledCandidates m ys ye) :=
      getLastSomeMem _ _ hlast
    have he1 : e.1 < ye - ys := (hbound last hlastmem e (firstMinCost_mem last e he)).1
    have hts : ∀ t ∈ (dpTables mj (filledCandidates m ys ye)).reverse,
        ∀ en ∈ t, ∀ yp, en.2.2 = some yp → yp < ye - ys := by
      intro t ht en hen yp hyp
      exact (hbound t (List.mem_reverse.mp ht) en hen).2 yp hyp
    constructor
    · intro hnil
      rw [← hq, List.reverse_eq_nil_iff] at hnil
      have hh := backtrackRev_head ((dpTables mj (filledCandidates m ys ye)).reverse) e.1
      rw [hnil] at hh
      simp at hh
    · intro y hy
      rw [← hq, List.mem_reverse] at hy
      exact backtrackRev_bound (ye - ys) _ hts e.1 he1 y hy

/-- Edge padding and truncation only produce values of a nonempty input. -/
theorem padTakeW_mem (l : List ℚ) (W : ℕ) (hl : l ≠ []) : ∀ v ∈ padTakeW l W, v ∈ l := by
  intro v hv
  unfold padTakeW at hv
  have hv' := List.mem_of_mem_take hv
  rcases List.mem_append.mp hv' with h | h
  · exact h
  · have hrep := List.eq_of_mem_replicate h
    rw [List.getLast?_eq_getLast l hl] at hrep
    exact hrep ▸ List.getLast_mem hl

/-- Every element of the centroid array is its own `getD` read at some
in-range column. -/
theorem centroidTraceY_mem_getD (m : Mask) (ys ye : ℕ) :
    ∀ o ∈ centroidTraceY m ys ye,
      ∃ x, x < maskWidth m ∧ (centroidTraceY m ys ye).getD x none = o := by
  intro o ho
  unfold centroidTraceY at ho ⊢
  obtain ⟨x, hx, rfl⟩ := List.mem_map.mp ho
  rw [List.mem_range] at hx
  exact ⟨x, hx, getD_map_range _ _ _ _ hx⟩

/-- Valid centroid columns are strictly increasing. -/
theorem centroidValid_pairwise (m : Mask) (ys ye : ℕ) :
    List.Pairwise (· < ·) (centroidValid m ys ye) := by
  unfold centroidValid
  exact List.Pairwise.filter _ (List.pairwise_lt_range _)

/-- Valid centroid columns really carry a centroid value, and it lies inside
the region. -/
theorem centroidValid_value (m : Mask) (ys ye : ℕ) (hys : ys < ye) :
    ∀ x ∈ centroidValid m ys ye, ∃ q, (centroidTraceY m ys ye).getD x none = some q ∧
      (ys : ℚ) ≤ q ∧ q ≤ (ye : ℚ) := by
  intro x hx
  unfold centroidValid at hx
  have hsome := List.of_mem_filter hx
  obtain ⟨q, hq⟩ := Option.isSome_iff_exists.mp hsome
  exact ⟨q, hq, centroidTraceY_bound m ys ye x q hys hq⟩

/-- Both result branches of `extract_trace_centroid` stay inside the region's
vertical bounds whenever the mask is at least three columns wide. -/
theorem extract_trace_centroid_bounds (m : Mask) (ys ye : ℕ) (p : List ℚ)
    (hys : ys < ye) (hW : 3 ≤ maskWidth m)
    (h : extract_trace_centroid m ys ye = some p) :
    ∀ v ∈ p, (ys : ℚ) ≤ v ∧ v ≤ (ye : ℚ) := by
  have hcast : (ys : ℚ) ≤ (ye : ℚ) := Nat.cast_le.mpr (le_of_lt hys)
  have h0 : (0 : ℚ) ≤ (ys : ℚ) := Nat.cast_nonneg ys
  simp only [extract_trace_centroid] at h
  split at h
  · rw [Option.some_inj] at h
    subst h
    intro v hv
    have hv' := List.eq_of_mem_replicate hv
    subst hv'
    constructor <;> linarith
  · split at h
    · split at h
      · simp at h
      · next h2 =>
        rw [Option.some_inj] at h
        subst h
        push_neg at h2
        apply medfilt5_bounds _ _ _ h0 hcast
        · intro v hv
          obtain ⟨x, hx, rfl⟩ := List.mem_map.mp hv
          apply interpAt_bounds (ys : ℚ) (ye : ℚ) _ _ ?hne ?hpw ?hb
          case hne =>
            intro hnil
            have hlen := congrArg List.length hnil
            rw [List.length_map] at hlen
            simp only [List.length_nil] at hlen
            omega
          case hpw =>
            rw [List.pairwise_map]
            exact (centroidValid_pairwise m ys ye).imp (fun hab => by
              exact_mod_cast Nat.cast_lt.mpr hab)
          case hb =>
            intro pt hpt
            obtain ⟨xv, hxv, rfl⟩ := List.mem_map.mp hpt
            obtain ⟨q, hq, hqb⟩ := centroidValid_value m ys ye hys xv hxv
            rw [hq]
            exact hqb
        · rw [List.length_map, List.length_range]
          exact hW
    · next hgeW =>
      rw [Option.some_inj] at h
      subst h
      push_neg at hgeW
      have hvalidW : (centroidValid m ys ye).length = maskWidth m := by
        have hle : (centroidValid m ys ye).length ≤ maskWidth m := by
          unfold centroidValid
          have := List.length_filter_le
            (fun x => ((centroidTraceY m ys ye).getD x none).isSome)
            (List.range (maskWidth m))
          rwa [List.length_range] at this
        omega
      have hall : ∀ x ∈ List.range (maskWidth m),
          ((centroidTraceY m ys ye).getD x none).isSome := by
        apply List.filter_length_eq_length.mp
        unfold centroidValid at hvalidW
        rw [hvalidW, List.length_range]
      apply medfilt5_bounds _ _ _ h0 hcast
      · intro v hv
        obtain ⟨o, ho, rfl⟩ := List.mem_map.mp hv
        obtain ⟨x, hxW, hgd⟩ := centroidTraceY_mem_getD m ys ye o ho
        have hsome := hall x (List.mem_range.mpr hxW)
        rw [hgd] at hsome
        obtain ⟨q, hq⟩ := Option.isSome_iff_exists.mp hsome
        subst hq
        have hq' : (centroidTraceY m ys ye).getD x none = some q := hgd
        have := centroidTraceY_bound m ys ye x q hys hq'
        simpa using this
      · rw [List.length_map]
        unfold centroidTraceY
        rw [List.length_map, List.length_range]
        exact hW

/-- Both the Viterbi path and its centroid fallback stay inside the region's
vertical bounds (full-image coordinates) whenever the mask is at least three
columns wide. -/
theorem extract_trace_viterbi_bounds (m : Mask) (ys ye mj : ℕ) (p : List ℚ)
    (hys : ys < ye) (hW : 3 ≤ maskWidth m)
    (h : extract_trace_viterbi m ys ye mj = some p) :
    ∀ v ∈ p, (ys : ℚ) ≤ v ∧ v ≤ (ye : ℚ) := by
  unfold extract_trace_viterbi at h
  split at h
  · next q hq =>
    rw [Option.some_inj] at h
    subst h
    obtain ⟨hne, hb⟩ := viterbiDP_bound m ys ye mj q hys hq
    intro v hv
    have hmapne : q.map (fun y : ℕ => ((y + ys : ℕ) : ℚ)) ≠ [] := by
      intro hnil
      exact hne (List.map_eq_nil.mp hnil)
    have hv' := padTakeW_mem _ _ hmapne v hv
    obtain ⟨y, hy, rfl⟩ := List.mem_map.mp hv'
    have hylt := hb y hy
    constructor
    · exact Nat.cast_le.mpr (by omega)
    · exact Nat.cast_le.mpr (by omega)
  · exact extract_trace_centroid_bounds m ys ye p hys hW h

/-- C10 as stated fails: on the 10 × 1 mask with its only trace pixel at row
4 and the region (4, 8), the per-column centroid is 4, but the width-5 median
filter's zero padding dominates the single-column window and the returned
path value 0 lies below `y_start = 4`. -/
theorem C10_counterexample :
    extract_trace_centroid maskW1 4 8 = some [0] ∧ ¬ ((4 : ℚ) ≤ 0) := by decide

/-- C10 (amended): for every trace mask at least 3 columns wide and every
region with `y_start < y_end`, every value of the path returned by either
extraction method (`extract_trace_viterbi`, for any `max_jump`, or
`extract_trace_centroid`) lies within the region's vertical bounds
`[y_start, y_end]` in full-image coordinates: candidate clusters,
empty-column fills, the midpoint constant path, interpolation and the median
filter all stay inside the region. -/
theorem C10_amended (m : Mask) (ys ye mj : ℕ) (p : List ℚ)
    (hys : ys < ye) (hW : 3 ≤ maskWidth m)
    (h : extract_trace_viterbi m ys ye mj = some p ∨
      extract_trace_centroid m ys ye = some p) :
    ∀ v ∈ p, (ys : ℚ) ≤ v ∧ v ≤ (ye : ℚ) := by
  rcases h with h | h
  · exact extract_trace_viterbi_bounds m ys ye mj p hys hW h
  · exact extract_trace_centroid_bounds m ys ye p hys hW h

/-- C10 witness: on the 10 × 3 mask with a horizontal trace at row 5 and the
region (4, 8) the centroid path is `[5, 5, 5]`, inside `[4, 8]`. -/
theorem C10_amended_witness :
    ((4 : ℕ) : ℚ) ≤ (5 : ℚ) ∧ (5 : ℚ) ≤ ((8 : ℕ) : ℚ) :=
  C10_amended maskC10w 4 8 30 [5, 5, 5] (by decide) (by decide)
    (Or.inr (by decide)) 5 (by decide)
